import Mathlib

/-!
Verification development for the RCPSP ALNS scheduling engine.

The definitions below are a shallow embedding of the Python sources:
  src/sgs.py        (schedule_order: serial schedule generation)
  src/state.py      (RcpspState, objective)
  src/operators.py  (random_removal, non_peak_removal, random_insert,
                     justify, justify_repair)

Machine integers are embedded as Nat/Int (durations, needs and capacities
are non-negative per the data model; start/finish arrays use the -1
sentinel, hence Int).  NumPy arrays become lists; the shared mutable
capacity matrix `data.cap_tm` is threaded explicitly: the builder returns
the capacity matrix as it stands after the call.  The unbounded inner
forward scan of the builder is given explicit fuel; a Python run that
terminates corresponds to a sufficiently large fuel value, and running out
of fuel is a distinguished error, separate from the no-eligible-job error.
Randomness is threaded as data: the values a generator would produce
(the removed subset, the insertion positions) are explicit parameters.
-/

/-- Container for static RCPSP data, mirroring src/data.py `ProblemData`. -/
structure ProblemData where
  durations : List Nat
  successors : List (List Nat)
  predecessors : List (List Nat)
  needs : List (List Nat)
  cap_tm : List (List Nat)
  resource_names : List String
  deriving DecidableEq

/-- Elementwise check `np.any(used[tau] + req > cap[tau])` from sgs.py line 76. -/
def rowExceeds (u req c : List Nat) : Bool :=
  (List.zipWith (fun s cc => decide (cc < s)) (List.zipWith (· + ·) u req) c).any id

/-- Feasibility of the window [t, t+d): no period violates capacity
(the inner `for tau in range(t, t + d)` loop of sgs.py lines 74-78). -/
def windowFeasible (used cap : List (List Nat)) (req : List Nat) (t d : Nat) : Bool :=
  decide (∀ k < d, rowExceeds (used.getD (t + k) []) req (cap.getD (t + k) []) = false)

/-- Rows appended by `np.repeat(data.cap_tm[-1:], extra, axis=0)`:
`extra` copies of the last row, or nothing when the matrix has no rows. -/
def padRows (cap : List (List Nat)) (extra : Nat) : List (List Nat) :=
  match cap.getLast? with
  | some r => List.replicate extra r
  | none => []

/-- Horizon extension of sgs.py lines 67-72: when the window would overrun
the horizon, extend capacities by repeating the last row and zero-extend
usage accordingly. -/
def ensureLen (cap used : List (List Nat)) (needed : Nat) :
    List (List Nat) × List (List Nat) :=
  if needed ≤ cap.length then (cap, used)
  else
    let pad := padRows cap (needed - cap.length)
    (cap ++ pad, used ++ pad.map fun r => List.replicate r.length 0)

/-- Forward scan of sgs.py lines 66-85: starting at `t`, find the first
start whose window fits within capacities, extending the horizon as
needed; `fuel` bounds the number of candidate starts examined. -/
def findStart (req : List Nat) (d : Nat) :
    Nat → Nat → List (List Nat) → List (List Nat) →
    Option (Nat × List (List Nat) × List (List Nat))
  | 0, _, _, _ => none
  | fuel + 1, t, cap, used =>
    let cu := ensureLen cap used (t + d)
    if windowFeasible cu.2 cu.1 req t d then some (t, cu.1, cu.2)
    else findStart req d fuel (t + 1) cu.1 cu.2

/-- Usage update `used[t:t + d] += req` of sgs.py line 80. -/
def addUsage (used : List (List Nat)) (t d : Nat) (req : List Nat) : List (List Nat) :=
  (List.range used.length).map fun i =>
    if t ≤ i ∧ i < t + d then List.zipWith (· + ·) (used.getD i []) req else used.getD i []

/-- Mutable loop state of schedule_order: per-job start/finish/scheduled
arrays plus the usage and capacity matrices. -/
structure BuildState where
  startT : Nat → Int
  finishT : Nat → Int
  scheduled : Nat → Bool
  used : List (List Nat)
  cap : List (List Nat)

/-- Failure modes of the embedded builder: the RuntimeError of sgs.py
line 48, and exhaustion of the explicit fuel of the forward scan. -/
inductive SGSError where
  | noEligible
  | fuelOut
  deriving DecidableEq

/-- Predecessors of job `j` restricted to jobs present in the order
(`preds_present` of sgs.py lines 43 and 52). -/
def predsPresent (data : ProblemData) (order : List Nat) (j : Nat) : List Nat :=
  (data.predecessors.getD j []).filter fun p => order.contains p

/-- Eligibility of job `j`: all present predecessors already scheduled
(sgs.py line 44). -/
def eligible (data : ProblemData) (order : List Nat) (sched : Nat → Bool) (j : Nat) : Bool :=
  (predsPresent data order j).all fun p => sched p

/-- Main loop of schedule_order (sgs.py lines 40-85).  `order` is the
full priority list defining the `present` set; `rem` is the list of jobs
still to place; the outer fuel is one unit per placed job.  The `est`
computation folds max over present-predecessor finish times starting at 0,
which combines Python's `max(..., default=0)` with the `if est < 0` clamp
(scheduled finish times are never negative, so the two agree). -/
def sgsLoop (data : ProblemData) (order : List Nat) (F : Nat) :
    Nat → List Nat → BuildState → Except SGSError BuildState
  | _, [], s => .ok s
  | 0, _ :: _, _ => .error .fuelOut
  | fuel + 1, rem, s =>
    match rem.findIdx? (eligible data order s.scheduled) with
    | none => .error .noEligible
    | some idx =>
      let j := rem.getD idx 0
      let rem' := rem.eraseIdx idx
      let est : Int := ((predsPresent data order j).map s.finishT).foldl max 0
      let d := data.durations.getD j 0
      if d = 0 then
        sgsLoop data order F fuel rem'
          { s with
            startT := Function.update s.startT j est
            finishT := Function.update s.finishT j est
            scheduled := Function.update s.scheduled j true }
      else
        match findStart (data.needs.getD j []) d F est.toNat s.cap s.used with
        | none => .error .fuelOut
        | some (t, cap', used') =>
          sgsLoop data order F fuel rem'
            { startT := Function.update s.startT j (t : Int)
              finishT := Function.update s.finishT j ((t : Int) + (d : Int))
              scheduled := Function.update s.scheduled j true
              used := addUsage used' t d (data.needs.getD j [])
              cap := cap' }

/-- Result of the builder: start times, usage cropped to the makespan,
and the capacity matrix as left behind by the call (the visible effect of
the in-place `data.cap_tm` extension). -/
structure SGSResult where
  starts : List Int
  usedEff : List (List Nat)
  capOut : List (List Nat)
  deriving DecidableEq

/-- Initial loop state (sgs.py lines 32-35): all starts and finishes -1,
nothing scheduled, usage all zero with the shape of the capacity matrix. -/
def initState (data : ProblemData) : BuildState :=
  { startT := fun _ => -1
    finishT := fun _ => -1
    scheduled := fun _ => false
    used := data.cap_tm.map fun r => List.replicate r.length 0
    cap := data.cap_tm }

/-- Makespan `int(finish_times.max(initial=0))` of sgs.py line 87. -/
def makespanOf (s : BuildState) (n : Nat) : Nat :=
  (((List.range n).map s.finishT).foldl max 0).toNat

/-- Serial SGS with time-varying capacities (sgs.py `schedule_order`). -/
def schedule_order (order : List Nat) (data : ProblemData) (F : Nat) :
    Except SGSError SGSResult :=
  match sgsLoop data order F order.length order (initState data) with
  | .error e => .error e
  | .ok s =>
    let n := data.durations.length
    let ms := makespanOf s n
    .ok { starts := (List.range n).map s.startT
          usedEff := s.used.take ms
          capOut := s.cap }

/-- Problem data as it stands after a builder call: only cap_tm changes. -/
def dataAfter (data : ProblemData) (res : SGSResult) : ProblemData :=
  { data with cap_tm := res.capOut }

/-- ALNS state for RCPSP (src/state.py `RcpspState`): a job order with the
schedule computed eagerly at construction time. -/
structure RcpspState where
  order : List Nat
  data : ProblemData
  starts : List Int
  used : List (List Nat)
  deriving DecidableEq

/-- State construction (state.py lines 17-26): run the builder on the
order; the stored data carries the possibly extended capacity matrix. -/
def mkState (order : List Nat) (data : ProblemData) (F : Nat) :
    Except SGSError RcpspState :=
  match schedule_order order data F with
  | .error e => .error e
  | .ok res =>
    .ok { order := order
          data := dataAfter data res
          starts := res.starts
          used := res.usedEff }

/-- Count of positive-duration jobs with sentinel starts
(`mask.sum()` of state.py line 47). -/
def unscheduledCount (starts : List Int) (dur : List Nat) : Nat :=
  ∑ j ∈ Finset.range dur.length,
    if 0 < dur.getD j 0 ∧ starts.getD j (-1) < 0 then 1 else 0

/-- Makespan expression `(starts + dur).max(initial=0)` of state.py line 49. -/
def makespanVal (starts : List Int) (dur : List Nat) : Int :=
  ((List.range dur.length).map fun j => starts.getD j (-1) + (dur.getD j 0 : Int)).foldl max 0

/-- Objective of state.py lines 34-49: a 10^12 penalty plus the number of
stranded positive-duration jobs when the schedule is partial, otherwise
the makespan. -/
def objectiveFn (starts : List Int) (dur : List Nat) : Int :=
  if ∃ j < dur.length, 0 < dur.getD j 0 ∧ starts.getD j (-1) < 0 then
    10 ^ 12 + unscheduledCount starts dur
  else makespanVal starts dur

/-- Objective of a state (method `RcpspState.objective`). -/
def RcpspState.objective (st : RcpspState) : Int :=
  objectiveFn st.starts st.data.durations

/-- Number removed by random_removal: `k = max(1, int(frac * n))`, capped
at `n` (operators.py lines 27-29).  For the generator-produced fractions
`int` truncation and the floor below agree (both sides are clamped to at
least 1, and floor equals truncation on non-negative values). -/
def removalCount (frac : ℚ) (n : Nat) : Nat :=
  let k := max 1 (Int.toNat ⌊frac * (n : ℚ)⌋)
  if n < k then n else k

/-- Removal size as the specification claims it: max(1, round(f·n)).
This follows the words of the claim, to be compared with `removalCount`
taken from the source. -/
def claimedRemovalCount (frac : ℚ) (n : Nat) : Nat :=
  max 1 (round (frac * (n : ℚ))).toNat

/-- Destroy operator random_removal (operators.py lines 22-32).  The
generator is modelled by `choice`: given the sample size it yields the
sampled jobs; the contract that `choice k` holds `k` distinct members of
the order is a hypothesis of the theorems below. -/
def random_removal_apply (frac : ℚ) (choice : Nat → List Nat) (st : RcpspState) (F : Nat) :
    Except SGSError RcpspState :=
  if st.order.length = 0 then .ok st
  else
    let removed := choice (removalCount frac st.order.length)
    mkState (st.order.filter fun j => !removed.contains j) st.data F

/-- Sequential insertion of operators.py lines 90-92: each removed job in
removal order is inserted at the generator-chosen position.  randrange
yields a position of at most the current length, which the min enforces. -/
def insertAll (order : List Nat) : List Nat → List Nat → List Nat
  | [], _ => order
  | j :: rest, ps => insertAll (order.insertIdx (min (ps.headD 0) order.length) j) rest ps.tail

/-- Repair operator random_insert (operators.py lines 86-93). -/
def random_insert_apply (ps : List Nat) (removed : List Nat) (st : RcpspState) (F : Nat) :
    Except SGSError RcpspState :=
  if removed.isEmpty then .ok st
  else mkState (insertAll st.order removed ps) st.data F

/-- Stable insertion step: place `x` before the first element it should
precede (or tie with), keeping earlier elements of equal key first. -/
def stableInsert {α : Type} (le : α → α → Bool) (x : α) : List α → List α
  | [] => [x]
  | y :: ys => if le x y then x :: y :: ys else y :: stableInsert le x ys

/-- Stable sort under a total boolean preorder `le` (where `le x y` means
`x` may come before `y`).  A stable sort of a list under a total preorder
is unique, so this matches Python's stable `sorted`/`list.sort`. -/
def stableSort {α : Type} (le : α → α → Bool) : List α → List α
  | [] => []
  | x :: xs => stableInsert le x (stableSort le xs)

/-- Index permutation of operators.py line 111:
`sorted(range(len(state.order)), key=lambda j: (finish[j], starts[j]), reverse=True)`,
a stable descending sort of positions 0..len-1 under the given keys. -/
def justifyPerm (fin starts : Nat → Int) (len : Nat) : List Nat :=
  stableSort (fun i j =>
    decide (fin j < fin i ∨ (fin j = fin i ∧ starts j ≤ starts i))) (List.range len)

/-- Compaction heuristic justify (operators.py lines 97-113): rebuild the
schedule for the current order, then re-emit `state.order[j]` for the
sorted positions `j`. -/
def justify_apply (st : RcpspState) (F : Nat) : Except SGSError RcpspState :=
  match schedule_order st.order st.data F with
  | .error e => .error e
  | .ok res =>
    let starts := fun j => res.starts.getD j (-1)
    let fin := fun j => starts j + (st.data.durations.getD j 0 : Int)
    mkState ((justifyPerm fin starts st.order.length).map fun j => st.order.getD j 0)
      (dataAfter st.data res) F

/-- Repair wrapper justify_repair (operators.py lines 115-119): applies
justify, paying no attention to the removed-id set. -/
def justify_repair_apply (_removed : List Nat) (st : RcpspState) (F : Nat) :
    Except SGSError RcpspState :=
  justify_apply st F

/-- Mean of all entries of a matrix (`.mean()` over a 2-d array). -/
def matMean (m : List (List ℚ)) : ℚ :=
  let cnt := (m.map List.length).sum
  if cnt = 0 then 0 else (m.map List.sum).sum / (cnt : ℚ)

/-- Utilization score of one job (operators.py lines 56-65): mean over its
occupied window of used capacity divided by capacity floored at 1; zero
for zero-duration or unscheduled jobs. -/
def jobScore (data : ProblemData) (starts : List Int) (used cap : List (List Nat))
    (j : Nat) : ℚ :=
  let d := data.durations.getD j 0
  let s := starts.getD j (-1)
  if d = 0 ∨ s < 0 then 0
  else
    let s' := s.toNat
    let capWin := (cap.drop s').take d
    let usedWin := if s' + d ≤ used.length then (used.drop s').take d else used
    matMean (List.zipWith
      (fun (u c : List Nat) => List.zipWith (fun (a b : Nat) => (a : ℚ) / max (b : ℚ) 1) u c)
      usedWin capWin)

/-- Destroy operator non_peak_removal (operators.py lines 36-73): score
every job, sort ascending by score (stable), remove the lowest-scoring
`k` jobs from the order. -/
def non_peak_removal_apply (frac : ℚ) (st : RcpspState) (F : Nat) :
    Except SGSError RcpspState :=
  if st.order.length = 0 then .ok st
  else
    match schedule_order st.order st.data F with
    | .error e => .error e
    | .ok res =>
      let scores := (List.range res.starts.length).map fun j =>
        (j, jobScore st.data res.starts res.usedEff res.capOut j)
      let sorted := stableSort (fun a b => decide (a.2 ≤ b.2)) scores
      let k0 := max 1 (Int.toNat ⌊frac * (st.order.length : ℚ)⌋)
      let k := min k0 sorted.length
      let toRemove := (sorted.take k).map Prod.fst
      mkState (st.order.filter fun j => !toRemove.contains j) (dataAfter st.data res) F

/-- Acyclicity of the precedence graph: some numbering strictly increases
along every edge (equivalent to the absence of cycles on a finite graph). -/
def Acyclic (data : ProblemData) : Prop :=
  ∃ rank : Nat → Nat, ∀ j < data.durations.length,
    ∀ p ∈ data.predecessors.getD j [], rank p < rank j

/-- Every predecessor list mentions only valid job indices. -/
def ValidPreds (data : ProblemData) : Prop :=
  ∀ j < data.durations.length,
    ∀ p ∈ data.predecessors.getD j [], p < data.durations.length

/-- Shape discipline of the data model: a non-empty capacity horizon and
resource axes of needs and capacities aligned with the resource names. -/
def WFData (data : ProblemData) : Prop :=
  data.cap_tm ≠ [] ∧
  (∀ row ∈ data.cap_tm, row.length = data.resource_names.length) ∧
  data.needs.length = data.durations.length ∧
  (∀ row ∈ data.needs, row.length = data.resource_names.length)

/-- A topological order over the full job set: a permutation of all jobs
in which every predecessor precedes its successor. -/
def IsTopoOrder (order : List Nat) (data : ProblemData) : Prop :=
  order.Perm (List.range data.durations.length) ∧
  ∀ j < data.durations.length, ∀ p ∈ data.predecessors.getD j [],
    order.indexOf p < order.indexOf j

/-- Cumulative demand at period `tau` on resource `r` of all scheduled
positive-duration jobs whose occupied window covers `tau`. -/
def cumUsage (data : ProblemData) (starts : Nat → Int) (tau r : Nat) : Nat :=
  ∑ j ∈ Finset.range data.durations.length,
    if 0 < data.durations.getD j 0 ∧ 0 ≤ starts j ∧ starts j ≤ (tau : Int) ∧
        (tau : Int) < starts j + (data.durations.getD j 0 : Int)
    then (data.needs.getD j []).getD r 0 else 0

/-- Relation between capacity/usage matrix pairs before and after horizon
extension: some number of copies of the last capacity row is appended to
the capacities, with matching all-zero rows appended to the usage. -/
def Extends (cap used cap' used' : List (List Nat)) : Prop :=
  ∃ m, cap' = cap ++ List.replicate m (cap.getLastD []) ∧
    used' = used ++ List.replicate m (List.replicate (cap.getLastD []).length 0)

/-- Invariant of the builder loop, tying the mutable state to the problem
data, the order (the present set) and the jobs still to place. -/
structure LoopInv (data : ProblemData) (order : List Nat) (rem : List Nat)
    (s : BuildState) : Prop where
  nodupRem : rem.Nodup
  schedNotRem : ∀ j, s.scheduled j = true → j ∉ rem
  remSub : ∀ j ∈ rem, j ∈ order
  presentSched : ∀ p, p ∈ order → p ∉ rem → s.scheduled p = true
  sched_start : ∀ j, s.scheduled j = true → 0 ≤ s.startT j
  sched_finish : ∀ j, s.scheduled j = true →
    s.finishT j = s.startT j + (data.durations.getD j 0 : Int)
  unsched_start : ∀ j, s.scheduled j = false → s.startT j = -1
  unsched_finish : ∀ j, s.scheduled j = false → s.finishT j = -1
  prec : ∀ j, s.scheduled j = true → ∀ p ∈ data.predecessors.getD j [],
    p ∈ order → s.scheduled p = true ∧ s.finishT p ≤ s.startT j
  len_eq : s.used.length = s.cap.length
  cap_ext : ∃ m, s.cap = data.cap_tm ++ List.replicate m (data.cap_tm.getLastD [])
  widths_cap : ∀ row ∈ s.cap, row.length = data.resource_names.length
  widths_used : ∀ row ∈ s.used, row.length = data.resource_names.length
  le_cap : ∀ tau r, (s.used.getD tau []).getD r 0 ≤ (s.cap.getD tau []).getD r 0
  sum_le : ∀ tau r, cumUsage data s.startT tau r ≤ (s.used.getD tau []).getD r 0
  fin_le : ∀ j, s.scheduled j = true → s.finishT j ≤ (s.cap.length : Int)

/-! Concrete instances used by witnesses and counterexamples. -/

/-- Two jobs in a chain 0 → 1, unit durations, ample capacity. -/
def dataChain : ProblemData :=
  { durations := [1, 1], successors := [[1], []], predecessors := [[], [0]],
    needs := [[1], [1]], cap_tm := [[2], [2]], resource_names := ["R"] }

/-- One job of duration 2 against a one-period horizon: forces the
capacity matrix to be extended by one copied row. -/
def dataExt : ProblemData :=
  { durations := [2], successors := [[]], predecessors := [[]],
    needs := [[1]], cap_tm := [[1]], resource_names := ["R"] }

/-- Two independent jobs, durations 2 and 1, capacity 2: both start at 0. -/
def dataJ : ProblemData :=
  { durations := [2, 1], successors := [[], []], predecessors := [[], []],
    needs := [[1], [1]], cap_tm := [[2], [2]], resource_names := ["R"] }

/-- State built from order [1, 0] over dataJ. -/
def stJ : RcpspState :=
  { order := [1, 0], data := dataJ, starts := [0, 0], used := [[2], [1]] }

/-- Two independent jobs, durations 1 and 2, capacity 2: both start at 0. -/
def dataJ2 : ProblemData :=
  { durations := [1, 2], successors := [[], []], predecessors := [[], []],
    needs := [[1], [1]], cap_tm := [[2], [2]], resource_names := ["R"] }

/-- State built from order [0, 1] over dataJ2. -/
def stJ2 : RcpspState :=
  { order := [0, 1], data := dataJ2, starts := [0, 0], used := [[2], [1]] }

/-- Three independent unit jobs with no resource demand. -/
def data3 : ProblemData :=
  { durations := [1, 1, 1], successors := [[], [], []], predecessors := [[], [], []],
    needs := [[0], [0], [0]], cap_tm := [[1]], resource_names := ["R"] }

/-- State built from the full order [0, 1, 2] over data3. -/
def st3 : RcpspState :=
  { order := [0, 1, 2], data := data3, starts := [0, 0, 0], used := [[0]] }

/-- Two independent unit jobs with no resource demand. -/
def dataC4 : ProblemData :=
  { durations := [1, 1], successors := [[], []], predecessors := [[], []],
    needs := [[0], [0]], cap_tm := [[1]], resource_names := ["R"] }

/-- Partial state over dataC4 holding only job 0 (job 1 removed). -/
def stC4 : RcpspState :=
  { order := [0], data := dataC4, starts := [0, -1], used := [[0]] }

/-- State over dataC4 with an empty order. -/
def stE : RcpspState :=
  { order := [], data := dataC4, starts := [-1, -1], used := [] }

/-- State built from order [1, 2] over data3 (survivors of removing 0). -/
def st3r : RcpspState :=
  { order := [1, 2], data := data3, starts := [-1, 0, 0], used := [[0]] }

/-- State built from the full order [0, 1] over dataC4. -/
def stC4i : RcpspState :=
  { order := [0, 1], data := dataC4, starts := [0, 0], used := [[0]] }

/-- Builder result for order [0, 1] over dataChain. -/
def resChain : SGSResult :=
  { starts := [0, 1], usedEff := [[1], [1]], capOut := [[2], [2]] }

/-- Builder result for order [0] over dataExt: the horizon was extended
by one copied row. -/
def resExt : SGSResult :=
  { starts := [0], usedEff := [[1], [1]], capOut := [[1], [1]] }

/-- A single job whose duration pushes the makespan beyond the 10^12
objective penalty. -/
def dataBig : ProblemData :=
  { durations := [2000000000000], successors := [[]], predecessors := [[]],
    needs := [[0]], cap_tm := [[1]], resource_names := ["R"] }

/-! Generic list and fold helpers. -/

theorem getD_append_lt {α : Type} (l1 l2 : List α) (i : Nat) (d : α) (h : i < l1.length) :
    (l1 ++ l2).getD i d = l1.getD i d := by
  simp [List.getD, List.getElem?_append_left h]

theorem getD_append_ge {α : Type} (l1 l2 : List α) (i : Nat) (d : α) (h : l1.length ≤ i) :
    (l1 ++ l2).getD i d = l2.getD (i - l1.length) d := by
  simp [List.getD, List.getElem?_append_right h]

theorem getD_replicate {α : Type} (n i : Nat) (a d : α) :
    (List.replicate n a).getD i d = if i < n then a else d := by
  by_cases h : i < n <;> simp [List.getD, List.getElem?_replicate, h]

theorem foldl_max_init (l : List Int) (a : Int) : a ≤ l.foldl max a := by
  induction l generalizing a with
  | nil => simp
  | cons x xs ih => exact le_trans (le_max_left a x) (ih (max a x))

theorem foldl_max_of_mem (l : List Int) (b a : Int) : b ∈ l → b ≤ l.foldl max a := by
  induction l generalizing a with
  | nil => intro hb; cases hb
  | cons x xs ih =>
    intro hb
    rcases List.mem_cons.mp hb with rfl | h
    · exact le_trans (le_max_right a b) (foldl_max_init xs (max a b))
    · exact ih (max a x) h

theorem foldl_max_le {l : List Int} {a c : Int} (ha : a ≤ c) (h : ∀ b ∈ l, b ≤ c) :
    l.foldl max a ≤ c := by
  induction l generalizing a with
  | nil => exact ha
  | cons x xs ih =>
    exact ih (max_le ha (h x (List.mem_cons_self x xs))) fun b hb => h b (List.mem_cons_of_mem x hb)

theorem zipWith_add_getD (u v : List Nat) (r : Nat) (h : u.length = v.length) :
    (List.zipWith (· + ·) u v).getD r 0 = u.getD r 0 + v.getD r 0 := by
  induction u generalizing v r with
  | nil =>
    cases v with
    | nil => simp [List.getD]
    | cons y ys => simp at h
  | cons x xs ih =>
    cases v with
    | nil => simp at h
    | cons y ys =>
      cases r with
      | zero => rfl
      | succ r => simpa using ih ys r (by simpa using h)

theorem range_map_getD (l : List Nat) :
    (List.range l.length).map (fun i => l.getD i 0) = l := by
  apply List.ext_getElem
  · simp
  · intro i h1 h2
    simp [List.getD_eq_getElem?_getD, List.getElem?_eq_getElem h2]

theorem insertIdx_perm {α : Type} (l : List α) (n : Nat) (a : α) (h : n ≤ l.length) :
    (l.insertIdx n a).Perm (a :: l) := by
  induction l generalizing n with
  | nil =>
    have hn : n = 0 := Nat.le_zero.mp h
    subst hn
    simp
  | cons x xs ih =>
    cases n with
    | zero => simp
    | succ m =>
      rw [List.insertIdx_succ_cons]
      exact ((ih m (Nat.le_of_succ_le_succ h)).cons x).trans (List.Perm.swap a x xs)

theorem insertAll_perm (removed : List Nat) (order ps : List Nat) :
    (insertAll order removed ps).Perm (removed ++ order) := by
  induction removed generalizing order ps with
  | nil => simp [insertAll]
  | cons j rest ih =>
    have h1 : (order.insertIdx (min (ps.headD 0) order.length) j).Perm (j :: order) :=
      insertIdx_perm _ _ _ (min_le_right _ _)
    show (insertAll (order.insertIdx (min (ps.headD 0) order.length) j) rest ps.tail).Perm _
    exact (ih _ ps.tail).trans ((h1.append_left rest).trans List.perm_middle)

theorem stableInsert_perm {α : Type} (le : α → α → Bool) (x : α) (l : List α) :
    (stableInsert le x l).Perm (x :: l) := by
  induction l with
  | nil => exact List.Perm.refl _
  | cons y ys ih =>
    by_cases h : le x y
    · simp [stableInsert, h]
    · simp only [stableInsert, h, if_neg, Bool.false_eq_true, not_false_eq_true, if_false]
      exact (ih.cons y).trans (List.Perm.swap x y ys)

theorem stableSort_perm {α : Type} (le : α → α → Bool) (l : List α) :
    (stableSort le l).Perm l := by
  induction l with
  | nil => exact List.Perm.refl _
  | cons x xs ih => exact (stableInsert_perm le x (stableSort le xs)).trans (ih.cons x)

/-! Extraction lemmas for the operator wrappers. -/

theorem mkState_ok_order {o : List Nat} {d : ProblemData} {F : Nat} {st : RcpspState}
    (h : mkState o d F = .ok st) : st.order = o := by
  unfold mkState at h
  split at h
  · cases h
  · simp only [Except.ok.injEq] at h
    rw [← h]

theorem random_removal_ok_order {frac : ℚ} {choice : Nat → List Nat} {st : RcpspState}
    {F : Nat} {st' : RcpspState} (hne : st.order.length ≠ 0)
    (h : random_removal_apply frac choice st F = .ok st') :
    st'.order =
      st.order.filter fun j => !(choice (removalCount frac st.order.length)).contains j := by
  unfold random_removal_apply at h
  rw [if_neg hne] at h
  exact mkState_ok_order h

theorem random_insert_ok_order {ps removed : List Nat} {st : RcpspState} {F : Nat}
    {st' : RcpspState} (hne : removed.isEmpty = false)
    (h : random_insert_apply ps removed st F = .ok st') :
    st'.order = insertAll st.order removed ps := by
  unfold random_insert_apply at h
  rw [hne] at h
  exact mkState_ok_order (by simpa using h)

theorem justify_ok_order {st : RcpspState} {F : Nat} {st' : RcpspState}
    (h : justify_apply st F = .ok st') :
    ∃ l : List Nat, l.Perm (List.range st.order.length) ∧
      st'.order = l.map fun j => st.order.getD j 0 := by
  unfold justify_apply at h
  split at h
  · cases h
  · exact ⟨_, stableSort_perm _ _, mkState_ok_order h⟩

/-- Survivors of a removal plus the removed set permute the original order
(for duplicate-free data with the removed set drawn from the order). -/
theorem filter_append_removed_perm (order : List Nat) :
    ∀ removed : List Nat, order.Nodup → removed.Nodup → (∀ x ∈ removed, x ∈ order) →
    ((order.filter fun j => !removed.contains j) ++ removed).Perm order := by
  induction order with
  | nil =>
    intro removed _ _ hsub
    have : removed = [] :=
      List.eq_nil_iff_forall_not_mem.mpr fun x hx => List.not_mem_nil x (hsub x hx)
    simp [this]
  | cons x rest ih =>
    intro removed hno hrn hsub
    have hxrest : x ∉ rest := (List.nodup_cons.mp hno).1
    have hrest : rest.Nodup := (List.nodup_cons.mp hno).2
    by_cases hx : x ∈ removed
    · have hfx : (x :: rest).filter (fun j => !removed.contains j) =
          rest.filter fun j => !removed.contains j := by
        simp [List.filter_cons, hx]
      have hcongr : (rest.filter fun j => !removed.contains j) =
          rest.filter fun j => !(removed.erase x).contains j := by
        apply List.filter_congr
        intro j hj
        have hjx : j ≠ x := fun hjx => hxrest (hjx ▸ hj)
        by_cases hjm : j ∈ removed
        · have h2 : j ∈ removed.erase x := (List.mem_erase_of_ne hjx).mpr hjm
          simp [hjm, h2]
        · have h2 : j ∉ removed.erase x := fun hc => hjm (List.mem_of_mem_erase hc)
          simp [hjm, h2]
      have hsub' : ∀ y ∈ removed.erase x, y ∈ rest := by
        intro y hy
        have hyx : y ≠ x := (List.Nodup.mem_erase_iff hrn).mp hy |>.1
        have hym : y ∈ removed := List.mem_of_mem_erase hy
        rcases List.mem_cons.mp (hsub y hym) with h | h
        · exact (hyx h).elim
        · exact h
      have hperm := ih (removed.erase x) hrest (hrn.erase x) hsub'
      have hrm : removed.Perm (x :: removed.erase x) := List.perm_cons_erase hx
      have e1 : ((x :: rest).filter fun j => !removed.contains j) ++ removed
          = (rest.filter fun j => !(removed.erase x).contains j) ++ removed := by
        rw [hfx, hcongr]
      rw [e1]
      exact (hrm.append_left _).trans (List.perm_middle.trans (hperm.cons x))
    · have hsub' : ∀ y ∈ removed, y ∈ rest := by
        intro y hy
        rcases List.mem_cons.mp (hsub y hy) with h | h
        · exact absurd (h ▸ hy) hx
        · exact h
      have hperm := ih removed hrest hrn hsub'
      have hfx : (x :: rest).filter (fun j => !removed.contains j) =
          x :: rest.filter fun j => !removed.contains j := by
        simp [List.filter_cons, hx]
      rw [hfx]
      exact hperm.cons x

/-! Claim theorems: objective and operator claims. -/

/-- C3 (amended): the objective is the makespan when every
positive-duration job is scheduled and the 10^12 penalty plus the count of
stranded jobs otherwise; a state with an unscheduled positive-duration job
compares strictly worse than a fully scheduled one over the same job set
whenever the full state's makespan does not exceed 10^12 (the universal
claim fails for larger makespans, see the counterexample). -/
theorem C3_objective_amended
    (starts1 starts2 : List Int) (dur : List Nat)
    (hfull : ∀ j < dur.length, 0 < dur.getD j 0 → 0 ≤ starts1.getD j (-1))
    (hpart : ∃ j < dur.length, 0 < dur.getD j 0 ∧ starts2.getD j (-1) < 0)
    (hM : makespanVal starts1 dur ≤ 10 ^ 12) :
    objectiveFn starts1 dur = makespanVal starts1 dur ∧
    objectiveFn starts2 dur = 10 ^ 12 + (unscheduledCount starts2 dur : Int) ∧
    objectiveFn starts1 dur < objectiveFn starts2 dur := by
  have hnot : ¬ ∃ j < dur.length, 0 < dur.getD j 0 ∧ starts1.getD j (-1) < 0 := by
    rintro ⟨j, hj, hd, hs⟩
    exact absurd (hfull j hj hd) (not_le.mpr hs)
  have h1 : objectiveFn starts1 dur = makespanVal starts1 dur := by
    rw [objectiveFn, if_neg hnot]
  have h2 : objectiveFn starts2 dur = 10 ^ 12 + (unscheduledCount starts2 dur : Int) := by
    rw [objectiveFn, if_pos hpart]
  refine ⟨h1, h2, ?_⟩
  obtain ⟨j, hj, hd, hs⟩ := hpart
  have hcnt : 1 ≤ unscheduledCount starts2 dur := by
    unfold unscheduledCount
    have hle := Finset.single_le_sum
      (f := fun i => if 0 < dur.getD i 0 ∧ starts2.getD i (-1) < 0 then (1 : Nat) else 0)
      (fun i _ => Nat.zero_le _) (Finset.mem_range.mpr hj)
    refine le_trans ?_ hle
    exact le_of_eq (if_pos ⟨hd, hs⟩).symm
  have hcnt' : (1 : Int) ≤ (unscheduledCount starts2 dur : Int) := by exact_mod_cast hcnt
  rw [h1, h2]
  omega

/-- C3 witness for the amended ordering at a one-job instance. -/
theorem C3_objective_amended_witness :
    (∀ j < ([1] : List Nat).length, 0 < ([1] : List Nat).getD j 0 →
      0 ≤ ([0] : List Int).getD j (-1)) ∧
    (∃ j < ([1] : List Nat).length, 0 < ([1] : List Nat).getD j 0 ∧
      ([-1] : List Int).getD j (-1) < 0) ∧
    makespanVal [0] [1] ≤ 10 ^ 12 ∧
    objectiveFn [0] [1] < objectiveFn [-1] [1] :=
  ⟨by decide, by decide, by decide,
    (C3_objective_amended [0] [-1] [1] (by decide) (by decide) (by decide)).2.2⟩

/-- C4 counterexample: justify as a repair operator ignores the removed-id
set, so from the partial state [0] with removed set [1] over a two-job
instance it returns order [0], not a permutation of the full job set. -/
theorem C4_repair_perm_cex :
    mkState [0] dataC4 10 = .ok stC4 ∧
    (stC4.order ++ [1]).Perm [0, 1] ∧
    (justify_repair_apply [1] stC4 10).map (fun s => s.order) = .ok [0] ∧
    ¬ (([0] : List Nat).Perm [0, 1]) := by
  refine ⟨rfl, by decide, rfl, by decide⟩

/-- C4 (amended): random_insert with a non-empty removed set whose union
with the partial order is the full job set yields a permutation of the
full job set; justify yields a permutation of the partial state's own
order (it ignores the removed-id set). -/
theorem C4_repair_perm_amended :
    (∀ (ps removed full : List Nat) (st : RcpspState) (F : Nat) (st' : RcpspState),
      removed ≠ [] → (st.order ++ removed).Perm full →
      random_insert_apply ps removed st F = .ok st' → st'.order.Perm full) ∧
    (∀ (st : RcpspState) (F : Nat) (st' : RcpspState),
      justify_apply st F = .ok st' → st'.order.Perm st.order) := by
  constructor
  · intro ps removed full st F st' hne hfull hap
    have hord : st'.order = insertAll st.order removed ps :=
      random_insert_ok_order (by simpa [List.isEmpty_iff] using hne) hap
    rw [hord]
    exact (insertAll_perm removed st.order ps).trans (List.perm_append_comm.trans hfull)
  · intro st F st' hap
    obtain ⟨l, hl, hord⟩ := justify_ok_order hap
    rw [hord]
    have hmap : (l.map fun j => st.order.getD j 0).Perm
        ((List.range st.order.length).map fun j => st.order.getD j 0) := hl.map _
    rwa [range_map_getD st.order] at hmap

/-- C4 witness: both amended parts at concrete two-job instances. -/
theorem C4_repair_perm_amended_witness :
    random_insert_apply [1] [1] stC4 10 = .ok stC4i ∧ stC4i.order.Perm [0, 1] ∧
    justify_apply stC4 10 = .ok stC4 ∧ stC4.order.Perm stC4.order :=
  ⟨rfl,
    C4_repair_perm_amended.1 [1] [1] [0, 1] stC4 10 stC4i (by decide) (by decide) rfl,
    rfl,
    C4_repair_perm_amended.2 stC4 10 stC4 rfl⟩

/-- C7 counterexample: with f = 1/2 and n = 3 the code removes
max(1, int(1.5)) = 1 job, while the claim's max(1, round(1.5)) = 2 would
leave a single survivor; the code leaves two. -/
theorem C7_random_removal_cex :
    mkState [0, 1, 2] data3 10 = .ok st3 ∧
    (random_removal_apply (1/2) (fun _ => [0]) st3 10).map (fun s => s.order) = .ok [1, 2] ∧
    removalCount (1/2) 3 = 1 ∧
    claimedRemovalCount (1/2) 3 = 2 ∧
    (([1, 2] : List Nat).length : Nat) ≠ 3 - claimedRemovalCount (1/2) 3 := by
  have hc : claimedRemovalCount (1/2) 3 = 2 := by
    unfold claimedRemovalCount
    have hround : round ((1 : ℚ)/2 * (3 : Nat)) = 2 := by norm_num [round_eq]
    rw [hround]
    decide
  have hr : removalCount (1/2) 3 = 1 := by
    unfold removalCount
    norm_num
  refine ⟨rfl, rfl, hr, hc, ?_⟩
  rw [hc]
  decide

/-- C7 (amended): random_removal removes exactly
max(1, trunc(f·n)) (capped at n) generator-chosen distinct jobs, and the
survivors keep their relative order (the claim's round is a truncation in
the code). -/
theorem C7_random_removal_amended
    (st : RcpspState) (frac : ℚ) (choice : Nat → List Nat) (F : Nat) (st' : RcpspState)
    (hne : st.order.length ≠ 0)
    (hnd : st.order.Nodup)
    (hcn : (choice (removalCount frac st.order.length)).Nodup)
    (hcs : ∀ x ∈ choice (removalCount frac st.order.length), x ∈ st.order)
    (hck : (choice (removalCount frac st.order.length)).length =
      removalCount frac st.order.length)
    (hap : random_removal_apply frac choice st F = .ok st') :
    st'.order.Sublist st.order ∧
    st'.order.length = st.order.length - removalCount frac st.order.length ∧
    (st'.order ++ choice (removalCount frac st.order.length)).Perm st.order := by
  have hord := random_removal_ok_order hne hap
  have hperm := filter_append_removed_perm st.order
    (choice (removalCount frac st.order.length)) hnd hcn hcs
  refine ⟨?_, ?_, ?_⟩
  · rw [hord]; exact List.filter_sublist _
  · have hlen := hperm.length_eq
    rw [List.length_append, hck] at hlen
    rw [hord]
    omega
  · rw [hord]; exact hperm

/-- C7 witness at the three-job instance with f = 1/2. -/
theorem C7_random_removal_amended_witness :
    random_removal_apply (1/2) (fun _ => [0]) st3 10 = .ok st3r ∧
    st3r.order.Sublist st3.order ∧
    st3r.order.length = st3.order.length - removalCount (1/2) st3.order.length ∧
    (st3r.order ++ (fun _ : Nat => [0]) (removalCount (1/2) st3.order.length)).Perm st3.order := by
  have hck : ((fun _ : Nat => ([0] : List Nat))
      (removalCount (1/2) st3.order.length)).length = removalCount (1/2) st3.order.length := by
    show 1 = removalCount (1/2) 3
    unfold removalCount
    norm_num
  have h := C7_random_removal_amended st3 (1/2) (fun _ => [0]) 10 st3r
    (by decide) (by decide) (by decide) (by decide) hck rfl
  exact ⟨rfl, h.1, h.2.1, h.2.2⟩

/-- C8: justify's sort key indexes the finish array by list position, not
by the job occupying that position.  At order [1, 0] over dataJ the
schedule gives job 0 finish 2 and job 1 finish 1; sorting by own finish
descending would emit [0, 1], but the code emits [1, 0], whose first job
finishes strictly earlier than its second. -/
theorem C8_justify_bug :
    mkState [1, 0] dataJ 10 = .ok stJ ∧
    (justify_apply stJ 10).map (fun s => s.order) = .ok [1, 0] ∧
    stJ.starts.getD 1 (-1) + (dataJ.durations.getD 1 0 : Int) <
      stJ.starts.getD 0 (-1) + (dataJ.durations.getD 0 0 : Int) := by
  refine ⟨rfl, rfl, by decide⟩

/-- C9 counterexample: justify_repair invoked with an empty removed-id set
does not return the input state unchanged: over dataJ2 it reorders
[0, 1] into [1, 0]. -/
theorem C9_noop_cex :
    mkState [0, 1] dataJ2 10 = .ok stJ2 ∧
    (justify_repair_apply [] stJ2 10).map (fun s => s.order) = .ok [1, 0] ∧
    ([1, 0] : List Nat) ≠ stJ2.order := by
  refine ⟨rfl, rfl, by decide⟩

/-- C9 (amended): both destroy operators return the input state unchanged
on an empty order, and random_insert does so for an empty removed set;
justify_repair instead always behaves as justify, regardless of the
removed-id set. -/
theorem C9_noop_amended :
    (∀ (frac : ℚ) (choice : Nat → List Nat) (st : RcpspState) (F : Nat),
      st.order = [] → random_removal_apply frac choice st F = .ok st) ∧
    (∀ (frac : ℚ) (st : RcpspState) (F : Nat),
      st.order = [] → non_peak_removal_apply frac st F = .ok st) ∧
    (∀ (ps removed : List Nat) (st : RcpspState) (F : Nat),
      removed = [] → random_insert_apply ps removed st F = .ok st) ∧
    (∀ (removed : List Nat) (st : RcpspState) (F : Nat),
      justify_repair_apply removed st F = justify_apply st F) := by
  refine ⟨?_, ?_, ?_, ?_⟩
  · intro frac choice st F h
    simp [random_removal_apply, h]
  · intro frac st F h
    simp [non_peak_removal_apply, h]
  · intro ps removed st F h
    simp [random_insert_apply, h]
  · intro removed st F
    rfl

/-- C9 witness: the no-op branches at a concrete empty-order state and an
empty removed set, and justify_repair's pass-through at a dummy set. -/
theorem C9_noop_amended_witness :
    random_removal_apply 0 (fun _ => []) stE 5 = .ok stE ∧
    non_peak_removal_apply 0 stE 5 = .ok stE ∧
    random_insert_apply [] [] stE 5 = .ok stE ∧
    justify_repair_apply [7] stE 5 = justify_apply stE 5 :=
  ⟨C9_noop_amended.1 0 (fun _ => []) stE 5 rfl, C9_noop_amended.2.1 0 stE 5 rfl,
    C9_noop_amended.2.2.1 [] [] stE 5 rfl, C9_noop_amended.2.2.2 [7] stE 5⟩

/-! Generic unfolding lemmas for the builder wrappers. -/

theorem schedule_order_eq_of_sgsLoop {order : List Nat} {data : ProblemData} {F : Nat}
    {s : BuildState}
    (h : sgsLoop data order F order.length order (initState data) = .ok s) :
    schedule_order order data F = .ok
      { starts := (List.range data.durations.length).map s.startT
        usedEff := s.used.take (makespanOf s data.durations.length)
        capOut := s.cap } := by
  unfold schedule_order
  rw [h]

theorem schedule_order_err_of_sgsLoop {order : List Nat} {data : ProblemData} {F : Nat}
    {e : SGSError}
    (h : sgsLoop data order F order.length order (initState data) = .error e) :
    schedule_order order data F = .error e := by
  unfold schedule_order
  rw [h]

theorem mkState_eq_of_schedule {order : List Nat} {data : ProblemData} {F : Nat}
    {res : SGSResult} (h : schedule_order order data F = .ok res) :
    mkState order data F = .ok
      { order := order, data := dataAfter data res
        starts := res.starts, used := res.usedEff } := by
  unfold mkState
  rw [h]

/-! Symbolic evaluation of the builder on dataBig (duration 2·10^12);
these computations cannot be run to normal form, so each loop step is
reduced by rewriting. -/

theorem ensureLen_big :
    ensureLen [[1]] [[0]] (0 + 2000000000000) =
      (List.replicate 2000000000000 [1], List.replicate 2000000000000 [0]) := by
  unfold ensureLen
  rw [if_neg (by norm_num)]
  have hcount : 0 + 2000000000000 - ([[1]] : List (List Nat)).length = 1999999999999 := by
    norm_num
  have hpad : padRows [[1]] (0 + 2000000000000 - ([[1]] : List (List Nat)).length) =
      List.replicate 1999999999999 [1] := by
    rw [hcount]
    rfl
  rw [hpad]
  have e1 : [[1]] ++ List.replicate 1999999999999 [1] = List.replicate 2000000000000 [1] := by
    have h1 : ([[1]] : List (List Nat)) = List.replicate 1 [1] := rfl
    rw [h1, ← List.replicate_add]
  have e2 : [[0]] ++ (List.replicate 1999999999999 [1]).map (fun r => List.replicate r.length 0) =
      List.replicate 2000000000000 [0] := by
    rw [List.map_replicate]
    have h1 : ([[0]] : List (List Nat)) = List.replicate 1 [0] := rfl
    have h2 : List.replicate ([1] : List Nat).length 0 = [0] := rfl
    rw [h2, h1, ← List.replicate_add]
  simp only [e1, e2]

theorem windowFeasible_big :
    windowFeasible (List.replicate 2000000000000 [0]) (List.replicate 2000000000000 [1])
      [0] 0 2000000000000 = true := by
  unfold windowFeasible
  rw [decide_eq_true_eq]
  intro k hk
  rw [getD_replicate, getD_replicate, if_pos (by omega), if_pos (by omega)]
  rfl

theorem findStart_big :
    findStart [0] 2000000000000 1 0 [[1]] [[0]] =
      some (0, List.replicate 2000000000000 [1], List.replicate 2000000000000 [0]) := by
  show (let cu := ensureLen [[1]] [[0]] (0 + 2000000000000)
    if windowFeasible cu.2 cu.1 [0] 0 2000000000000 then some (0, cu.1, cu.2)
    else findStart [0] 2000000000000 0 (0 + 1) cu.1 cu.2) = _
  rw [ensureLen_big]
  rw [if_pos windowFeasible_big]

theorem addUsage_big :
    addUsage (List.replicate 2000000000000 [0]) 0 2000000000000 [0] =
      List.replicate 2000000000000 [0] := by
  unfold addUsage
  rw [List.length_replicate]
  rw [List.eq_replicate_iff]
  refine ⟨by rw [List.length_map, List.length_range], ?_⟩
  intro b hb
  obtain ⟨i, hi, hfb⟩ := List.mem_map.mp hb
  have hilt : i < 2000000000000 := List.mem_range.mp hi
  rw [← hfb, if_pos ⟨Nat.zero_le i, by omega⟩, getD_replicate, if_pos hilt]
  rfl

theorem sgsLoop_big :
    sgsLoop dataBig [0] 1 1 [0] (initState dataBig) = .ok
      { startT := Function.update (fun _ => (-1 : Int)) 0 0
        finishT := Function.update (fun _ => (-1 : Int)) 0 2000000000000
        scheduled := Function.update (fun _ => false) 0 true
        used := List.replicate 2000000000000 [0]
        cap := List.replicate 2000000000000 [1] } := by
  rw [sgsLoop.eq_3 dataBig [0] 1 [0] (initState dataBig) 0 (by simp)]
  rw [show List.findIdx? (eligible dataBig [0] (initState dataBig).scheduled) [0] =
      some 0 from rfl]
  simp only []
  rw [show ([0] : List Nat).getD 0 0 = 0 from rfl]
  rw [show ([0] : List Nat).eraseIdx 0 = [] from rfl]
  rw [show List.foldl max 0
      (List.map (initState dataBig).finishT (predsPresent dataBig [0] 0)) = (0 : Int) from rfl]
  rw [show dataBig.durations.getD 0 0 = 2000000000000 from rfl]
  rw [if_neg (by norm_num)]
  rw [show dataBig.needs.getD 0 [] = [0] from rfl]
  rw [show (0 : Int).toNat = 0 from rfl]
  rw [show (initState dataBig).cap = [[1]] from rfl]
  rw [show (initState dataBig).used = [[0]] from rfl]
  rw [findStart_big]
  simp only []
  rw [addUsage_big]
  rw [sgsLoop.eq_1]
  rfl

theorem schedule_order_big :
    schedule_order [0] dataBig 1 = .ok
      { starts := [0]
        usedEff := List.replicate 2000000000000 [0]
        capOut := List.replicate 2000000000000 [1] } := by
  have hsl : sgsLoop dataBig [0] 1 ([0] : List Nat).length [0] (initState dataBig) = .ok
      { startT := Function.update (fun _ => (-1 : Int)) 0 0
        finishT := Function.update (fun _ => (-1 : Int)) 0 2000000000000
        scheduled := Function.update (fun _ => false) 0 true
        used := List.replicate 2000000000000 [0]
        cap := List.replicate 2000000000000 [1] } := sgsLoop_big
  rw [schedule_order_eq_of_sgsLoop hsl]
  rw [show (List.range dataBig.durations.length).map
      (BuildState.startT
        { startT := Function.update (fun _ => (-1 : Int)) 0 0
          finishT := Function.update (fun _ => (-1 : Int)) 0 2000000000000
          scheduled := Function.update (fun _ => false) 0 true
          used := List.replicate 2000000000000 [0]
          cap := List.replicate 2000000000000 [1] }) = [0] from rfl]
  rw [show makespanOf
      { startT := Function.update (fun _ => (-1 : Int)) 0 0
        finishT := Function.update (fun _ => (-1 : Int)) 0 2000000000000
        scheduled := Function.update (fun _ => false) 0 true
        used := List.replicate 2000000000000 [0]
        cap := List.replicate 2000000000000 [1] } dataBig.durations.length
      = 2000000000000 from rfl]
  rw [show BuildState.used
      { startT := Function.update (fun _ => (-1 : Int)) 0 0
        finishT := Function.update (fun _ => (-1 : Int)) 0 2000000000000
        scheduled := Function.update (fun _ => false) 0 true
        used := List.replicate 2000000000000 [0]
        cap := List.replicate 2000000000000 [1] } = List.replicate 2000000000000 [0] from rfl]
  rw [List.take_replicate, Nat.min_self]

theorem mkState_big_full :
    (mkState [0] dataBig 1).map (fun s => (s.order, s.starts)) = .ok ([0], [0]) := by
  rw [mkState_eq_of_schedule schedule_order_big]
  rfl

theorem mkState_big_empty :
    (mkState [] dataBig 1).map (fun s => (s.order, s.starts)) = .ok ([], [-1]) := rfl

/-- C3 counterexample: over the one-job instance dataBig (duration
2·10^12) the state for the full order [0] is reachable with starts [0]
(makespan 2·10^12, a finite M) and the state for the empty order is
reachable with starts [-1] (one stranded positive-duration job); yet the
partial state's objective, 10^12 + 1, is strictly SMALLER than the full
state's, 2·10^12, refuting the claim's "for every finite M". -/
theorem C3_objective_cex :
    (mkState [0] dataBig 1).map (fun s => (s.order, s.starts)) = .ok ([0], [0]) ∧
    (mkState [] dataBig 1).map (fun s => (s.order, s.starts)) = .ok ([], [-1]) ∧
    (∀ j < dataBig.durations.length, 0 < dataBig.durations.getD j 0 →
      0 ≤ ([0] : List Int).getD j (-1)) ∧
    (∃ j < dataBig.durations.length, 0 < dataBig.durations.getD j 0 ∧
      ([-1] : List Int).getD j (-1) < 0) ∧
    objectiveFn [-1] dataBig.durations < objectiveFn [0] dataBig.durations := by
  exact ⟨mkState_big_full, mkState_big_empty, by decide, by decide, by decide⟩

/-! Facts about horizon extension and the forward scan. -/

theorem getD_mem {α : Type} {l : List α} {i : Nat} (d : α) (h : i < l.length) :
    l.getD i d ∈ l := by
  rw [List.getD_eq_getElem?_getD, List.getElem?_eq_getElem h]
  exact List.getElem_mem h

theorem getLastD_append_replicate (cap : List (List Nat)) (m : Nat) :
    (cap ++ List.replicate m (cap.getLastD [])).getLastD [] = cap.getLastD [] := by
  cases m with
  | zero => simp
  | succ k =>
    rw [List.getLastD_eq_getLast?, List.getLast?_append, List.getLast?_replicate]
    simp

theorem Extends_refl (cap used : List (List Nat)) : Extends cap used cap used :=
  ⟨0, by simp, by simp⟩

theorem Extends_trans {c1 u1 c2 u2 c3 u3 : List (List Nat)}
    (h12 : Extends c1 u1 c2 u2) (h23 : Extends c2 u2 c3 u3) : Extends c1 u1 c3 u3 := by
  obtain ⟨m, hc2, hu2⟩ := h12
  obtain ⟨m2, hc3, hu3⟩ := h23
  have hlast : c2.getLastD [] = c1.getLastD [] := by
    rw [hc2]
    exact getLastD_append_replicate _ _
  refine ⟨m + m2, ?_, ?_⟩
  · rw [hc3, hlast, hc2, List.append_assoc, ← List.replicate_add]
  · rw [hu3, hlast, hu2, List.append_assoc, ← List.replicate_add]

theorem Extends_ne_nil {c1 u1 c2 u2 : List (List Nat)}
    (h : Extends c1 u1 c2 u2) (hne : c1 ≠ []) : c2 ≠ [] := by
  obtain ⟨m, hc2, _⟩ := h
  rw [hc2]
  simp [hne]

theorem Extends_lengths {c1 u1 c2 u2 : List (List Nat)} (h : Extends c1 u1 c2 u2) :
    c2.length = c1.length + (c2.length - c1.length) ∧
    u2.length = u1.length + (c2.length - c1.length) := by
  obtain ⟨m, hc2, hu2⟩ := h
  rw [hc2, hu2]
  simp

theorem padRows_of_ne_nil {cap : List (List Nat)} (h : cap ≠ []) (extra : Nat) :
    padRows cap extra = List.replicate extra (cap.getLastD []) := by
  unfold padRows
  cases hc : cap.getLast? with
  | none => exact absurd (List.getLast?_eq_none_iff.mp hc) h
  | some r =>
    rw [List.getLastD_eq_getLast?, hc]
    rfl

theorem ensureLen_extends (cap used : List (List Nat)) (needed : Nat) :
    Extends cap used (ensureLen cap used needed).1 (ensureLen cap used needed).2 := by
  unfold ensureLen
  by_cases h : needed ≤ cap.length
  · rw [if_pos h]
    exact Extends_refl _ _
  · rw [if_neg h]
    by_cases hc : cap = []
    · subst hc
      refine ⟨0, ?_, ?_⟩ <;> simp [padRows]
    · rw [padRows_of_ne_nil hc]
      exact ⟨needed - cap.length, rfl, by simp only [List.map_replicate]⟩

theorem ensureLen_length {cap used : List (List Nat)} (needed : Nat) (h : cap ≠ []) :
    needed ≤ (ensureLen cap used needed).1.length := by
  unfold ensureLen
  by_cases hle : needed ≤ cap.length
  · rw [if_pos hle]
    exact hle
  · rw [if_neg hle]
    simp only [List.length_append]
    rw [padRows_of_ne_nil h, List.length_replicate]
    omega

theorem findStart_spec (req : List Nat) (d : Nat) (fuel : Nat) :
    ∀ t0 cap used t cap' used',
      findStart req d fuel t0 cap used = some (t, cap', used') →
      t0 ≤ t ∧ Extends cap used cap' used' ∧
      (cap ≠ [] → t + d ≤ cap'.length) ∧
      windowFeasible used' cap' req t d = true := by
  induction fuel with
  | zero =>
    intro t0 cap used t cap' used' h
    cases h
  | succ fuel ih =>
    intro t0 cap used t cap' used' h
    have hext := ensureLen_extends cap used (t0 + d)
    rw [show findStart req d (fuel + 1) t0 cap used =
        (if windowFeasible (ensureLen cap used (t0 + d)).2 (ensureLen cap used (t0 + d)).1
            req t0 d then
          some (t0, (ensureLen cap used (t0 + d)).1, (ensureLen cap used (t0 + d)).2)
        else findStart req d fuel (t0 + 1) (ensureLen cap used (t0 + d)).1
          (ensureLen cap used (t0 + d)).2) from rfl] at h
    by_cases hw : windowFeasible (ensureLen cap used (t0 + d)).2
        (ensureLen cap used (t0 + d)).1 req t0 d = true
    · rw [if_pos hw] at h
      simp only [Option.some.injEq, Prod.mk.injEq] at h
      obtain ⟨rfl, rfl, rfl⟩ := h
      exact ⟨le_refl _, hext, fun hne => ensureLen_length (t0 + d) hne, hw⟩
    · rw [if_neg hw] at h
      obtain ⟨h1, h2, h3, h4⟩ := ih (t0 + 1) _ _ t cap' used' h
      refine ⟨by omega, Extends_trans hext h2, ?_, h4⟩
      intro hne
      exact h3 (Extends_ne_nil hext hne)

/-! Pointwise facts about rows, usage update and cumulative usage. -/

theorem rowExceeds_eq_false_getD {u req c : List Nat}
    (h : rowExceeds u req c = false) (hu : u.length = req.length)
    (hc : c.length = req.length) :
    ∀ r, u.getD r 0 + req.getD r 0 ≤ c.getD r 0 := by
  intro r
  induction u generalizing req c r with
  | nil =>
    cases req with
    | nil =>
      cases c with
      | nil => simp [List.getD]
      | cons cc cs => simp at hc
    | cons q qs => simp at hu
  | cons x xs ih =>
    cases req with
    | nil => simp at hu
    | cons q qs =>
      cases c with
      | nil => simp at hc
      | cons cc cs =>
        unfold rowExceeds at h
        simp only [List.zipWith_cons_cons, List.any_cons, Bool.or_eq_false_iff,
          decide_eq_false_iff_not, not_lt, id] at h
        cases r with
        | zero => exact h.1
        | succ r =>
          have hrec : rowExceeds xs qs cs = false := by
            unfold rowExceeds
            have := h.2
            simpa using this
          simpa using ih hrec (by simpa using hu) (by simpa using hc) r

theorem windowFeasible_getD {used cap : List (List Nat)} {req : List Nat} {t d : Nat}
    (h : windowFeasible used cap req t d = true)
    (hu : ∀ tau, t ≤ tau → tau < t + d → (used.getD tau []).length = req.length)
    (hc : ∀ tau, t ≤ tau → tau < t + d → (cap.getD tau []).length = req.length) :
    ∀ tau r, t ≤ tau → tau < t + d →
      (used.getD tau []).getD r 0 + req.getD r 0 ≤ (cap.getD tau []).getD r 0 := by
  intro tau r h1 h2
  unfold windowFeasible at h
  rw [decide_eq_true_eq] at h
  have hk := h (tau - t) (by omega)
  rw [show t + (tau - t) = tau from by omega] at hk
  exact rowExceeds_eq_false_getD hk (hu tau h1 h2) (hc tau h1 h2) r

theorem addUsage_length (used : List (List Nat)) (t d : Nat) (req : List Nat) :
    (addUsage used t d req).length = used.length := by
  unfold addUsage
  rw [List.length_map, List.length_range]

theorem getD_map_range {α : Type} (n : Nat) (f : Nat → α) (i : Nat) (dflt : α) :
    ((List.range n).map f).getD i dflt = if i < n then f i else dflt := by
  by_cases h : i < n
  · rw [if_pos h, List.getD_eq_getElem?_getD, List.getElem?_eq_getElem (by simpa using h)]
    simp
  · rw [if_neg h, List.getD_eq_getElem?_getD, List.getElem?_eq_none (by simpa using not_lt.mp h)]
    rfl

theorem addUsage_getD (used : List (List Nat)) (t d : Nat) (req : List Nat) (tau : Nat) :
    (addUsage used t d req).getD tau [] =
      (if tau < used.length then
        (if t ≤ tau ∧ tau < t + d then List.zipWith (· + ·) (used.getD tau []) req
          else used.getD tau [])
        else []) := by
  unfold addUsage
  rw [getD_map_range]

theorem addUsage_getD_getD (used : List (List Nat)) (t d : Nat) (req : List Nat)
    (tau r : Nat) (hwin : t + d ≤ used.length)
    (hw : ∀ row ∈ used, row.length = req.length) :
    ((addUsage used t d req).getD tau []).getD r 0 =
      (used.getD tau []).getD r 0 + (if t ≤ tau ∧ tau < t + d then req.getD r 0 else 0) := by
  rw [addUsage_getD]
  by_cases h : tau < used.length
  · rw [if_pos h]
    by_cases h2 : t ≤ tau ∧ tau < t + d
    · rw [if_pos h2, if_pos h2]
      exact zipWith_add_getD _ _ r (hw _ (getD_mem [] h))
    · rw [if_neg h2, if_neg h2, Nat.add_zero]
  · rw [if_neg h]
    have h2 : ¬ (t ≤ tau ∧ tau < t + d) := by omega
    rw [if_neg h2]
    have : used.getD tau [] = [] := by
      rw [List.getD_eq_getElem?_getD, List.getElem?_eq_none (by omega)]
      rfl
    rw [this]
    rfl

theorem addUsage_widths (used : List (List Nat)) (t d : Nat) (req : List Nat) (R : Nat)
    (hu : ∀ row ∈ used, row.length = R) (hr : req.length = R) :
    ∀ row ∈ addUsage used t d req, row.length = R := by
  intro row hrow
  unfold addUsage at hrow
  obtain ⟨i, hi, hfi⟩ := List.mem_map.mp hrow
  have hilt : i < used.length := List.mem_range.mp hi
  rw [← hfi]
  by_cases h : t ≤ i ∧ i < t + d
  · rw [if_pos h, List.length_zipWith, hu _ (getD_mem [] hilt), hr]
    exact Nat.min_self R
  · rw [if_neg h]
    exact hu _ (getD_mem [] hilt)

theorem getLastD_mem {l : List (List Nat)} (h : l ≠ []) : l.getLastD [] ∈ l := by
  rw [List.getLastD_eq_getLast?, List.getLast?_eq_getLast l h]
  exact List.getLast_mem h

theorem zero_row_getD (L r : Nat) : (List.replicate L (0 : Nat)).getD r 0 = 0 := by
  rw [getD_replicate]
  by_cases h : r < L <;> simp [h]

theorem le_cap_extends {cap used cap' used' : List (List Nat)}
    (hext : Extends cap used cap' used') (hlen : used.length = cap.length)
    (hle : ∀ tau r, (used.getD tau []).getD r 0 ≤ (cap.getD tau []).getD r 0) :
    ∀ tau r, (used'.getD tau []).getD r 0 ≤ (cap'.getD tau []).getD r 0 := by
  obtain ⟨m, hc, hu⟩ := hext
  intro tau r
  by_cases h1 : tau < used.length
  · rw [hc, hu, getD_append_lt _ _ _ _ h1, getD_append_lt _ _ _ _ (hlen ▸ h1)]
    exact hle tau r
  · by_cases h2 : tau < used.length + m
    · rw [hu, getD_append_ge _ _ _ _ (by omega), getD_replicate,
        if_pos (by omega), zero_row_getD]
      exact Nat.zero_le _
    · have hlen' : (used ++ List.replicate m
          (List.replicate (cap.getLastD []).length 0)).length ≤ tau := by
        rw [List.length_append, List.length_replicate]
        omega
      have hrow : (used ++ List.replicate m
          (List.replicate (cap.getLastD []).length 0)).getD tau [] = [] := by
        rw [List.getD_eq_getElem?_getD, List.getElem?_eq_none hlen']
        rfl
      rw [hu, hrow]
      simp

theorem sum_zero_le_extends {data : ProblemData} {f : Nat → Int}
    {cap used cap' used' : List (List Nat)} (hext : Extends cap used cap' used')
    (hsum : ∀ tau r, cumUsage data f tau r ≤ (used.getD tau []).getD r 0)
    (hzero : ∀ tau, used.length ≤ tau → ∀ r, cumUsage data f tau r = 0) :
    ∀ tau r, cumUsage data f tau r ≤ (used'.getD tau []).getD r 0 := by
  obtain ⟨m, hc, hu⟩ := hext
  intro tau r
  by_cases h1 : tau < used.length
  · rw [hu, getD_append_lt _ _ _ _ h1]
    exact hsum tau r
  · rw [hzero tau (by omega) r]
    exact Nat.zero_le _

theorem widths_extends {cap used cap' used' : List (List Nat)} {R : Nat}
    (hext : Extends cap used cap' used') (hcapne : cap ≠ [])
    (hc : ∀ row ∈ cap, row.length = R) (hu : ∀ row ∈ used, row.length = R) :
    (∀ row ∈ cap', row.length = R) ∧ (∀ row ∈ used', row.length = R) := by
  obtain ⟨m, hce, hue⟩ := hext
  have hlast : (cap.getLastD []).length = R := hc _ (getLastD_mem hcapne)
  constructor
  · intro row hrow
    rw [hce] at hrow
    rcases List.mem_append.mp hrow with h | h
    · exact hc _ h
    · rw [List.eq_of_mem_replicate h]
      exact hlast
  · intro row hrow
    rw [hue] at hrow
    rcases List.mem_append.mp hrow with h | h
    · exact hu _ h
    · rw [List.eq_of_mem_replicate h, List.length_replicate]
      exact hlast

theorem cumUsage_update_le (data : ProblemData) (f : Nat → Int) (j0 : Nat) (v : Int)
    (hold : f j0 = -1) (tau r : Nat) :
    cumUsage data (Function.update f j0 v) tau r ≤
      cumUsage data f tau r +
        (if 0 < data.durations.getD j0 0 ∧ 0 ≤ v ∧ v ≤ (tau : Int) ∧
            (tau : Int) < v + (data.durations.getD j0 0 : Int)
          then (data.needs.getD j0 []).getD r 0 else 0) := by
  unfold cumUsage
  by_cases hj : j0 < data.durations.length
  · have hmem := Finset.mem_range.mpr hj
    rw [← Finset.add_sum_erase _ _ hmem, ← Finset.add_sum_erase _
      (fun j => if 0 < data.durations.getD j 0 ∧ 0 ≤ f j ∧ f j ≤ (tau : Int) ∧
          (tau : Int) < f j + (data.durations.getD j 0 : Int)
        then (data.needs.getD j []).getD r 0 else 0) hmem]
    have herase : ∑ j ∈ (Finset.range data.durations.length).erase j0,
        (if 0 < data.durations.getD j 0 ∧ 0 ≤ Function.update f j0 v j ∧
            Function.update f j0 v j ≤ (tau : Int) ∧
            (tau : Int) < Function.update f j0 v j + (data.durations.getD j 0 : Int)
          then (data.needs.getD j []).getD r 0 else 0) =
        ∑ j ∈ (Finset.range data.durations.length).erase j0,
        (if 0 < data.durations.getD j 0 ∧ 0 ≤ f j ∧ f j ≤ (tau : Int) ∧
            (tau : Int) < f j + (data.durations.getD j 0 : Int)
          then (data.needs.getD j []).getD r 0 else 0) := by
      apply Finset.sum_congr rfl
      intro i hi
      rw [Function.update_noteq (Finset.ne_of_mem_erase hi)]
    rw [herase, Function.update_same]
    have hzero : (if 0 < data.durations.getD j0 0 ∧ 0 ≤ f j0 ∧ f j0 ≤ (tau : Int) ∧
        (tau : Int) < f j0 + (data.durations.getD j0 0 : Int)
      then (data.needs.getD j0 []).getD r 0 else 0) = 0 := by
      rw [if_neg]
      rw [hold]
      rintro ⟨-, hge, -, -⟩
      omega
    rw [hzero]
    omega
  · have hcong : ∑ j ∈ Finset.range data.durations.length,
        (if 0 < data.durations.getD j 0 ∧ 0 ≤ Function.update f j0 v j ∧
            Function.update f j0 v j ≤ (tau : Int) ∧
            (tau : Int) < Function.update f j0 v j + (data.durations.getD j 0 : Int)
          then (data.needs.getD j []).getD r 0 else 0) =
        ∑ j ∈ Finset.range data.durations.length,
        (if 0 < data.durations.getD j 0 ∧ 0 ≤ f j ∧ f j ≤ (tau : Int) ∧
            (tau : Int) < f j + (data.durations.getD j 0 : Int)
          then (data.needs.getD j []).getD r 0 else 0) := by
      apply Finset.sum_congr rfl
      intro i hi
      have : i ≠ j0 := fun he => hj (he ▸ Finset.mem_range.mp hi)
      rw [Function.update_noteq this]
    rw [hcong]
    exact Nat.le_add_right _ _

theorem cumUsage_eq_zero (data : ProblemData) (f : Nat → Int) (tau r : Nat)
    (h : ∀ j, j < data.durations.length → 0 < data.durations.getD j 0 → 0 ≤ f j →
      ¬ (f j ≤ (tau : Int) ∧ (tau : Int) < f j + (data.durations.getD j 0 : Int))) :
    cumUsage data f tau r = 0 := by
  unfold cumUsage
  apply Finset.sum_eq_zero
  intro i hi
  rw [if_neg]
  rintro ⟨h1, h2, h3, h4⟩
  exact h i (Finset.mem_range.mp hi) h1 h2 ⟨h3, h4⟩

theorem mem_predsPresent {data : ProblemData} {order : List Nat} {j p : Nat} :
    p ∈ predsPresent data order j ↔ p ∈ data.predecessors.getD j [] ∧ p ∈ order := by
  unfold predsPresent
  rw [List.mem_filter]
  simp [List.elem_iff]

theorem eligible_spec {data : ProblemData} {order : List Nat} {sched : Nat → Bool} {j : Nat}
    (h : eligible data order sched j = true) :
    ∀ p ∈ data.predecessors.getD j [], p ∈ order → sched p = true := by
  intro p hp hpo
  unfold eligible at h
  rw [List.all_eq_true] at h
  exact h p (mem_predsPresent.mpr ⟨hp, hpo⟩)

theorem findIdx?_some_facts {p : Nat → Bool} {l : List Nat} {i : Nat}
    (h : List.findIdx? p l = some i) : i < l.length ∧ p (l.getD i 0) = true := by
  rw [List.findIdx?_eq_some_iff_findIdx_eq] at h
  obtain ⟨hlt, hfi⟩ := h
  refine ⟨hlt, ?_⟩
  have hw : List.findIdx p l < l.length := hfi ▸ hlt
  have := List.findIdx_getElem (w := hw)
  rw [List.getD_eq_getElem?_getD, List.getElem?_eq_getElem hlt]
  simpa [hfi] using this

theorem not_mem_eraseIdx_getD :
    ∀ (l : List Nat) (i : Nat), l.Nodup → i < l.length → l.getD i 0 ∉ l.eraseIdx i := by
  intro l
  induction l with
  | nil => intro i _ h; simp at h
  | cons a as ih =>
    intro i hnd hi
    cases i with
    | zero =>
      simpa using (List.nodup_cons.mp hnd).1
    | succ i =>
      simp only [List.eraseIdx_cons_succ, List.mem_cons]
      have h1 : as.getD i 0 ∈ as := getD_mem 0 (by simpa using hi)
      rintro (h | h)
      · exact (List.nodup_cons.mp hnd).1 (h ▸ h1)
      · exact ih i (List.nodup_cons.mp hnd).2 (by simpa using hi) h

theorem mem_eraseIdx_of_ne :
    ∀ (l : List Nat) (i : Nat) (p : Nat), p ∈ l → p ≠ l.getD i 0 → p ∈ l.eraseIdx i := by
  intro l
  induction l with
  | nil => intro i p h _; cases h
  | cons a as ih =>
    intro i p hp hne
    cases i with
    | zero =>
      rcases List.mem_cons.mp hp with rfl | h
      · exact absurd rfl hne
      · simpa using h
    | succ i =>
      simp only [List.eraseIdx_cons_succ, List.mem_cons]
      rcases List.mem_cons.mp hp with rfl | h
      · exact Or.inl rfl
      · exact Or.inr (ih i p h hne)

/-! Preservation of the loop invariant over one placement step. -/

theorem LoopInv_step_zero
    (data : ProblemData) (order : List Nat) (rem : List Nat) (s : BuildState)
    (idx j : Nat) (est : Int)
    (hinv : LoopInv data order rem s)
    (hfind : rem.findIdx? (eligible data order s.scheduled) = some idx)
    (hj : j = rem.getD idx 0)
    (hest : est = ((predsPresent data order j).map s.finishT).foldl max 0)
    (hd : data.durations.getD j 0 = 0) :
    LoopInv data order (rem.eraseIdx idx)
      { s with
        startT := Function.update s.startT j est
        finishT := Function.update s.finishT j est
        scheduled := Function.update s.scheduled j true } := by
  obtain ⟨hidx, helig⟩ := findIdx?_some_facts hfind
  have hjrem : j ∈ rem := hj ▸ getD_mem 0 hidx
  have hjord : j ∈ order := hinv.remSub j hjrem
  have hjns : s.scheduled j = false := by
    cases hsj : s.scheduled j
    · rfl
    · exact absurd hjrem (hinv.schedNotRem j hsj)
  have hestnn : (0 : Int) ≤ est := hest ▸ foldl_max_init _ _
  have hpred_sched : ∀ p ∈ data.predecessors.getD j [], p ∈ order → s.scheduled p = true :=
    eligible_spec (hj ▸ helig)
  have hpred_fin : ∀ p ∈ data.predecessors.getD j [], p ∈ order → s.finishT p ≤ est := by
    intro p hp hpo
    rw [hest]
    exact foldl_max_of_mem _ _ _ (List.mem_map.mpr ⟨p, mem_predsPresent.mpr ⟨hp, hpo⟩, rfl⟩)
  have hest_le_cap : est ≤ (s.cap.length : Int) := by
    rw [hest]
    apply foldl_max_le
    · exact_mod_cast Nat.zero_le _
    · intro b hb
      obtain ⟨p, hpmem, rfl⟩ := List.mem_map.mp hb
      obtain ⟨hp, hpo⟩ := mem_predsPresent.mp hpmem
      exact hinv.fin_le p (hpred_sched p hp hpo)
  refine ⟨?_, ?_, ?_, ?_, ?_, ?_, ?_, ?_, ?_, ?_, ?_, ?_, ?_, ?_, ?_, ?_⟩
  · exact List.Nodup.eraseIdx idx hinv.nodupRem
  · intro j' hs'
    have hs2 : Function.update s.scheduled j true j' = true := hs'
    by_cases hjj : j' = j
    · subst hjj
      exact hj ▸ not_mem_eraseIdx_getD rem idx hinv.nodupRem hidx
    · rw [Function.update_noteq hjj] at hs2
      intro hmem
      exact hinv.schedNotRem j' hs2 ((List.eraseIdx_sublist rem idx).subset hmem)
  · exact fun j' hj' => hinv.remSub j' ((List.eraseIdx_sublist rem idx).subset hj')
  · intro p hpo hprem'
    show Function.update s.scheduled j true p = true
    by_cases hpj : p = j
    · subst hpj
      exact Function.update_same _ _ _
    · rw [Function.update_noteq hpj]
      apply hinv.presentSched p hpo
      intro hprem
      exact hprem' (mem_eraseIdx_of_ne rem idx p hprem (hj ▸ hpj))
  · intro j' hs'
    have hs2 : Function.update s.scheduled j true j' = true := hs'
    show (0 : Int) ≤ Function.update s.startT j est j'
    by_cases hjj : j' = j
    · subst hjj
      rw [Function.update_same]
      exact hestnn
    · rw [Function.update_noteq hjj] at hs2
      rw [Function.update_noteq hjj]
      exact hinv.sched_start j' hs2
  · intro j' hs'
    have hs2 : Function.update s.scheduled j true j' = true := hs'
    show Function.update s.finishT j est j' =
      Function.update s.startT j est j' + (data.durations.getD j' 0 : Int)
    by_cases hjj : j' = j
    · subst hjj
      rw [Function.update_same, Function.update_same, hd]
      simp
    · rw [Function.update_noteq hjj] at hs2
      rw [Function.update_noteq hjj, Function.update_noteq hjj]
      exact hinv.sched_finish j' hs2
  · intro j' hs'
    have hs2 : Function.update s.scheduled j true j' = false := hs'
    show Function.update s.startT j est j' = -1
    have hjj : j' ≠ j := by
      intro he
      rw [he, Function.update_same] at hs2
      cases hs2
    rw [Function.update_noteq hjj] at hs2
    rw [Function.update_noteq hjj]
    exact hinv.unsched_start j' hs2
  · intro j' hs'
    have hs2 : Function.update s.scheduled j true j' = false := hs'
    show Function.update s.finishT j est j' = -1
    have hjj : j' ≠ j := by
      intro he
      rw [he, Function.update_same] at hs2
      cases hs2
    rw [Function.update_noteq hjj] at hs2
    rw [Function.update_noteq hjj]
    exact hinv.unsched_finish j' hs2
  · intro j' hs' p hp hpo
    have hs2 : Function.update s.scheduled j true j' = true := hs'
    show Function.update s.scheduled j true p = true ∧
      Function.update s.finishT j est p ≤ Function.update s.startT j est j'
    by_cases hjj : j' = j
    · subst hjj
      have hps := hpred_sched p hp hpo
      have hpj : p ≠ j' := by
        intro he
        rw [he, hjns] at hps
        cases hps
      constructor
      · rw [Function.update_noteq hpj]
        exact hps
      · rw [Function.update_noteq hpj, Function.update_same]
        exact hpred_fin p hp hpo
    · rw [Function.update_noteq hjj] at hs2
      obtain ⟨h1, h2⟩ := hinv.prec j' hs2 p hp hpo
      have hpj : p ≠ j := by
        intro he
        rw [he, hjns] at h1
        cases h1
      constructor
      · rw [Function.update_noteq hpj]
        exact h1
      · rw [Function.update_noteq hpj, Function.update_noteq hjj]
        exact h2
  · exact hinv.len_eq
  · exact hinv.cap_ext
  · exact hinv.widths_cap
  · exact hinv.widths_used
  · exact hinv.le_cap
  · intro tau r
    show cumUsage data (Function.update s.startT j est) tau r ≤ _
    have hb := cumUsage_update_le data s.startT j est (hinv.unsched_start j hjns) tau r
    have hbonus : (if 0 < data.durations.getD j 0 ∧ 0 ≤ est ∧ est ≤ (tau : Int) ∧
        (tau : Int) < est + (data.durations.getD j 0 : Int)
      then (data.needs.getD j []).getD r 0 else 0) = 0 := by
      rw [if_neg]
      rintro ⟨h1, -⟩
      rw [hd] at h1
      exact absurd h1 (lt_irrefl 0)
    rw [hbonus, Nat.add_zero] at hb
    exact le_trans hb (hinv.sum_le tau r)
  · intro j' hs'
    have hs2 : Function.update s.scheduled j true j' = true := hs'
    show Function.update s.finishT j est j' ≤ _
    by_cases hjj : j' = j
    · subst hjj
      rw [Function.update_same]
      exact hest_le_cap
    · rw [Function.update_noteq hjj] at hs2
      rw [Function.update_noteq hjj]
      exact hinv.fin_le j' hs2

theorem LoopInv_step_pos
    (data : ProblemData) (order : List Nat) (rem : List Nat) (s : BuildState)
    (idx j : Nat) (est : Int) (F t : Nat) (cap' used' : List (List Nat))
    (hwf : WFData data) (hord : ∀ i ∈ order, i < data.durations.length)
    (hinv : LoopInv data order rem s)
    (hfind : rem.findIdx? (eligible data order s.scheduled) = some idx)
    (hj : j = rem.getD idx 0)
    (hest : est = ((predsPresent data order j).map s.finishT).foldl max 0)
    (hdne : data.durations.getD j 0 ≠ 0)
    (hfs : findStart (data.needs.getD j []) (data.durations.getD j 0) F est.toNat
      s.cap s.used = some (t, cap', used')) :
    LoopInv data order (rem.eraseIdx idx)
      { startT := Function.update s.startT j (t : Int)
        finishT := Function.update s.finishT j ((t : Int) + (data.durations.getD j 0 : Int))
        scheduled := Function.update s.scheduled j true
        used := addUsage used' t (data.durations.getD j 0) (data.needs.getD j [])
        cap := cap' } := by
  obtain ⟨hidx, helig⟩ := findIdx?_some_facts hfind
  obtain ⟨hcne, hwc, hneedlen, hwn⟩ := hwf
  have hjrem : j ∈ rem := hj ▸ getD_mem 0 hidx
  have hjord : j ∈ order := hinv.remSub j hjrem
  have hjlt : j < data.durations.length := hord j hjord
  have hjns : s.scheduled j = false := by
    cases hsj : s.scheduled j
    · rfl
    · exact absurd hjrem (hinv.schedNotRem j hsj)
  have hestnn : (0 : Int) ≤ est := hest ▸ foldl_max_init _ _
  have hpred_sched : ∀ p ∈ data.predecessors.getD j [], p ∈ order → s.scheduled p = true :=
    eligible_spec (hj ▸ helig)
  have hpred_fin : ∀ p ∈ data.predecessors.getD j [], p ∈ order → s.finishT p ≤ est := by
    intro p hp hpo
    rw [hest]
    exact foldl_max_of_mem _ _ _ (List.mem_map.mpr ⟨p, mem_predsPresent.mpr ⟨hp, hpo⟩, rfl⟩)
  obtain ⟨ht0, hext, hlenf, hwfeas⟩ :=
    findStart_spec (data.needs.getD j []) (data.durations.getD j 0) F est.toNat
      s.cap s.used t cap' used' hfs
  have hscapne : s.cap ≠ [] := by
    obtain ⟨m, hce⟩ := hinv.cap_ext
    rw [hce]
    simp [hcne]
  have hwin : t + data.durations.getD j 0 ≤ cap'.length := hlenf hscapne
  obtain ⟨hclen, hulen⟩ := Extends_lengths hext
  have hlen' : used'.length = cap'.length := by
    rw [hulen, hinv.len_eq, ← hclen]
  have hwinu : t + data.durations.getD j 0 ≤ used'.length := by
    rw [hlen']
    exact hwin
  have hcap'len : s.cap.length ≤ cap'.length := by omega
  have ht_ge : est ≤ (t : Int) := by
    have h1 : (est.toNat : Int) = est := Int.toNat_of_nonneg hestnn
    rw [← h1]
    exact_mod_cast ht0
  obtain ⟨hwc', hwu'⟩ := widths_extends hext hscapne hinv.widths_cap hinv.widths_used
  have hreqw : (data.needs.getD j []).length = data.resource_names.length := by
    apply hwn
    apply getD_mem
    rw [hneedlen]
    exact hjlt
  have hrowsw : ∀ row ∈ used', row.length = (data.needs.getD j []).length := by
    intro row hrow
    rw [hreqw]
    exact hwu' row hrow
  have hle_cap' : ∀ tau r, (used'.getD tau []).getD r 0 ≤ (cap'.getD tau []).getD r 0 :=
    le_cap_extends hext hinv.len_eq hinv.le_cap
  have hzero : ∀ tau2, s.used.length ≤ tau2 → ∀ r2, cumUsage data s.startT tau2 r2 = 0 := by
    intro tau2 htau2 r2
    apply cumUsage_eq_zero
    intro j2 hj2 hdur2 hge2
    cases hsj2 : s.scheduled j2 with
    | false =>
      rw [hinv.unsched_start j2 hsj2] at hge2
      exact absurd hge2 (by norm_num)
    | true =>
      rintro ⟨h3, h4⟩
      have hf := hinv.fin_le j2 hsj2
      have hsf := hinv.sched_finish j2 hsj2
      rw [hsf] at hf
      have hul : s.used.length = s.cap.length := hinv.len_eq
      omega
  have hsum' : ∀ tau r, cumUsage data s.startT tau r ≤ (used'.getD tau []).getD r 0 :=
    sum_zero_le_extends hext hinv.sum_le hzero
  have hfeasp := windowFeasible_getD hwfeas
    (fun tau h1 h2 => hrowsw _ (getD_mem [] (by omega)))
    (fun tau h1 h2 => by
      rw [hreqw]
      exact hwc' _ (getD_mem [] (by omega)))
  refine ⟨?_, ?_, ?_, ?_, ?_, ?_, ?_, ?_, ?_, ?_, ?_, ?_, ?_, ?_, ?_, ?_⟩
  · exact List.Nodup.eraseIdx idx hinv.nodupRem
  · intro j' hs'
    have hs2 : Function.update s.scheduled j true j' = true := hs'
    by_cases hjj : j' = j
    · subst hjj
      exact hj ▸ not_mem_eraseIdx_getD rem idx hinv.nodupRem hidx
    · rw [Function.update_noteq hjj] at hs2
      intro hmem
      exact hinv.schedNotRem j' hs2 ((List.eraseIdx_sublist rem idx).subset hmem)
  · exact fun j' hj' => hinv.remSub j' ((List.eraseIdx_sublist rem idx).subset hj')
  · intro p hpo hprem'
    show Function.update s.scheduled j true p = true
    by_cases hpj : p = j
    · subst hpj
      exact Function.update_same _ _ _
    · rw [Function.update_noteq hpj]
      apply hinv.presentSched p hpo
      intro hprem
      exact hprem' (mem_eraseIdx_of_ne rem idx p hprem (hj ▸ hpj))
  · intro j' hs'
    have hs2 : Function.update s.scheduled j true j' = true := hs'
    show (0 : Int) ≤ Function.update s.startT j (t : Int) j'
    by_cases hjj : j' = j
    · subst hjj
      rw [Function.update_same]
      exact_mod_cast Nat.zero_le t
    · rw [Function.update_noteq hjj] at hs2
      rw [Function.update_noteq hjj]
      exact hinv.sched_start j' hs2
  · intro j' hs'
    have hs2 : Function.update s.scheduled j true j' = true := hs'
    show Function.update s.finishT j ((t : Int) + (data.durations.getD j 0 : Int)) j' =
      Function.update s.startT j (t : Int) j' + (data.durations.getD j' 0 : Int)
    by_cases hjj : j' = j
    · subst hjj
      rw [Function.update_same, Function.update_same]
    · rw [Function.update_noteq hjj] at hs2
      rw [Function.update_noteq hjj, Function.update_noteq hjj]
      exact hinv.sched_finish j' hs2
  · intro j' hs'
    have hs2 : Function.update s.scheduled j true j' = false := hs'
    show Function.update s.startT j (t : Int) j' = -1
    have hjj : j' ≠ j := by
      intro he
      rw [he, Function.update_same] at hs2
      cases hs2
    rw [Function.update_noteq hjj] at hs2
    rw [Function.update_noteq hjj]
    exact hinv.unsched_start j' hs2
  · intro j' hs'
    have hs2 : Function.update s.scheduled j true j' = false := hs'
    show Function.update s.finishT j ((t : Int) + (data.durations.getD j 0 : Int)) j' = -1
    have hjj : j' ≠ j := by
      intro he
      rw [he, Function.update_same] at hs2
      cases hs2
    rw [Function.update_noteq hjj] at hs2
    rw [Function.update_noteq hjj]
    exact hinv.unsched_finish j' hs2
  · intro j' hs' p hp hpo
    have hs2 : Function.update s.scheduled j true j' = true := hs'
    show Function.update s.scheduled j true p = true ∧
      Function.update s.finishT j ((t : Int) + (data.durations.getD j 0 : Int)) p ≤
        Function.update s.startT j (t : Int) j'
    by_cases hjj : j' = j
    · subst hjj
      have hps := hpred_sched p hp hpo
      have hpj : p ≠ j' := by
        intro he
        rw [he, hjns] at hps
        cases hps
      constructor
      · rw [Function.update_noteq hpj]
        exact hps
      · rw [Function.update_noteq hpj, Function.update_same]
        exact le_trans (hpred_fin p hp hpo) ht_ge
    · rw [Function.update_noteq hjj] at hs2
      obtain ⟨h1, h2⟩ := hinv.prec j' hs2 p hp hpo
      have hpj : p ≠ j := by
        intro he
        rw [he, hjns] at h1
        cases h1
      constructor
      · rw [Function.update_noteq hpj]
        exact h1
      · rw [Function.update_noteq hpj, Function.update_noteq hjj]
        exact h2
  · show (addUsage used' t (data.durations.getD j 0) (data.needs.getD j [])).length =
      cap'.length
    rw [addUsage_length]
    exact hlen'
  · obtain ⟨m, hce⟩ := hinv.cap_ext
    obtain ⟨m2, hc2, -⟩ := hext
    refine ⟨m + m2, ?_⟩
    show cap' = _
    rw [hc2, hce, getLastD_append_replicate, List.append_assoc, ← List.replicate_add]
  · exact hwc'
  · exact addUsage_widths _ _ _ _ _ hwu' hreqw
  · intro tau r
    show ((addUsage used' t (data.durations.getD j 0)
        (data.needs.getD j [])).getD tau []).getD r 0 ≤ (cap'.getD tau []).getD r 0
    rw [addUsage_getD_getD _ _ _ _ _ _ hwinu hrowsw]
    by_cases hw : t ≤ tau ∧ tau < t + data.durations.getD j 0
    · rw [if_pos hw]
      exact hfeasp tau r hw.1 hw.2
    · rw [if_neg hw, Nat.add_zero]
      exact hle_cap' tau r
  · intro tau r
    show cumUsage data (Function.update s.startT j (t : Int)) tau r ≤
      ((addUsage used' t (data.durations.getD j 0) (data.needs.getD j [])).getD tau []).getD r 0
    rw [addUsage_getD_getD _ _ _ _ _ _ hwinu hrowsw]
    have hb := cumUsage_update_le data s.startT j (t : Int)
      (hinv.unsched_start j hjns) tau r
    have hbonus : (if 0 < data.durations.getD j 0 ∧ 0 ≤ (t : Int) ∧ (t : Int) ≤ (tau : Int) ∧
        (tau : Int) < (t : Int) + (data.durations.getD j 0 : Int)
      then (data.needs.getD j []).getD r 0 else 0) ≤
        (if t ≤ tau ∧ tau < t + data.durations.getD j 0
          then (data.needs.getD j []).getD r 0 else 0) := by
      by_cases hcnd : 0 < data.durations.getD j 0 ∧ 0 ≤ (t : Int) ∧ (t : Int) ≤ (tau : Int) ∧
          (tau : Int) < (t : Int) + (data.durations.getD j 0 : Int)
      · rw [if_pos hcnd, if_pos (by omega)]
      · rw [if_neg hcnd]
        exact Nat.zero_le _
    calc cumUsage data (Function.update s.startT j (t : Int)) tau r
        ≤ cumUsage data s.startT tau r + _ := hb
      _ ≤ (used'.getD tau []).getD r 0 +
          (if t ≤ tau ∧ tau < t + data.durations.getD j 0
            then (data.needs.getD j []).getD r 0 else 0) :=
          Nat.add_le_add (hsum' tau r) hbonus
  · intro j' hs'
    have hs2 : Function.update s.scheduled j true j' = true := hs'
    show Function.update s.finishT j ((t : Int) + (data.durations.getD j 0 : Int)) j' ≤
      (cap'.length : Int)
    by_cases hjj : j' = j
    · subst hjj
      rw [Function.update_same]
      exact_mod_cast hwin
    · rw [Function.update_noteq hjj] at hs2
      rw [Function.update_noteq hjj]
      exact le_trans (hinv.fin_le j' hs2) (by exact_mod_cast hcap'len)

theorem cumUsage_congr (data : ProblemData) (f g : Nat → Int) (tau r : Nat)
    (h : ∀ j < data.durations.length, f j = g j) :
    cumUsage data f tau r = cumUsage data g tau r := by
  unfold cumUsage
  apply Finset.sum_congr rfl
  intro i hi
  rw [h i (Finset.mem_range.mp hi)]

theorem LoopInv_init (data : ProblemData) (order : List Nat)
    (hwf : WFData data) (hnd : order.Nodup) :
    LoopInv data order order (initState data) := by
  obtain ⟨hcne, hwc, hneedlen, hwn⟩ := hwf
  have hzrow : ∀ tau r, (((data.cap_tm.map fun rr => List.replicate rr.length 0).getD tau
      []).getD r 0) = 0 := by
    intro tau r
    by_cases h : tau < data.cap_tm.length
    · have hmem : (data.cap_tm.map fun rr => List.replicate rr.length 0).getD tau [] ∈
          data.cap_tm.map fun rr => List.replicate rr.length 0 :=
        getD_mem [] (by simpa using h)
      obtain ⟨orig, _, heq⟩ := List.mem_map.mp hmem
      rw [← heq, zero_row_getD]
    · have hrow : (data.cap_tm.map fun rr => List.replicate rr.length 0).getD tau [] = [] := by
        rw [List.getD_eq_getElem?_getD, List.getElem?_eq_none (by simpa using not_lt.mp h)]
        rfl
      rw [hrow]
      rfl
  refine ⟨hnd, ?_, fun j h => h, ?_, ?_, ?_, ?_, ?_, ?_, ?_, ⟨0, by simp [initState]⟩, hwc, ?_, ?_, ?_, ?_⟩
  · intro j hs
    cases hs
  · intro p hpo hpno
    exact absurd hpo hpno
  · intro j hs
    cases hs
  · intro j hs
    cases hs
  · intro j _
    rfl
  · intro j _
    rfl
  · intro j hs
    cases hs
  · show (data.cap_tm.map fun rr => List.replicate rr.length 0).length = data.cap_tm.length
    rw [List.length_map]
  · intro row hrow
    obtain ⟨orig, ho, heq⟩ := List.mem_map.mp hrow
    rw [← heq, List.length_replicate]
    exact hwc _ ho
  · intro tau r
    show (((data.cap_tm.map fun rr => List.replicate rr.length 0).getD tau []).getD r 0) ≤ _
    rw [hzrow]
    exact Nat.zero_le _
  · intro tau r
    show cumUsage data (fun _ => -1) tau r ≤ _
    rw [cumUsage_eq_zero]
    · exact Nat.zero_le _
    · intro j _ _ hge
      exact absurd hge (by norm_num)
  · intro j hs
    cases hs

theorem sgsLoop_inv (data : ProblemData) (order : List Nat) (F : Nat)
    (hwf : WFData data) (hord : ∀ i ∈ order, i < data.durations.length) :
    ∀ fuel rem s s', LoopInv data order rem s →
      sgsLoop data order F fuel rem s = .ok s' → LoopInv data order [] s' := by
  intro fuel
  induction fuel with
  | zero =>
    intro rem s s' hinv hrun
    cases rem with
    | nil =>
      rw [sgsLoop.eq_1] at hrun
      obtain rfl : s = s' := by
        simpa using hrun
      exact hinv
    | cons a as =>
      rw [sgsLoop.eq_2] at hrun
      cases hrun
  | succ fuel ih =>
    intro rem s s' hinv hrun
    cases rem with
    | nil =>
      rw [sgsLoop.eq_1] at hrun
      obtain rfl : s = s' := by
        simpa using hrun
      exact hinv
    | cons a as =>
      rw [sgsLoop.eq_3 data order F (a :: as) s fuel (by simp)] at hrun
      cases hfind : List.findIdx? (eligible data order s.scheduled) (a :: as) with
      | none =>
        rw [hfind] at hrun
        cases hrun
      | some idx =>
        rw [hfind] at hrun
        simp only [] at hrun
        by_cases hd : data.durations.getD ((a :: as).getD idx 0) 0 = 0
        · rw [if_pos hd] at hrun
          exact ih _ _ _ (LoopInv_step_zero data order (a :: as) s idx _ _ hinv hfind rfl rfl hd)
            hrun
        · rw [if_neg hd] at hrun
          cases hfs : findStart (data.needs.getD ((a :: as).getD idx 0) [])
              (data.durations.getD ((a :: as).getD idx 0) 0) F
              ((((predsPresent data order ((a :: as).getD idx 0)).map
                s.finishT).foldl max 0).toNat) s.cap s.used with
          | none =>
            rw [hfs] at hrun
            cases hrun
          | some tcu =>
            obtain ⟨t, cap', used'⟩ := tcu
            rw [hfs] at hrun
            exact ih _ _ _
              (LoopInv_step_pos data order (a :: as) s idx _ _ F t cap' used'
                ⟨hwf.1, hwf.2.1, hwf.2.2.1, hwf.2.2.2⟩ hord hinv hfind rfl rfl hd hfs)
              hrun

theorem schedule_order_ok_elim {order : List Nat} {data : ProblemData} {F : Nat}
    {res : SGSResult} (h : schedule_order order data F = .ok res) :
    ∃ s, sgsLoop data order F order.length order (initState data) = .ok s ∧
      res.starts = (List.range data.durations.length).map s.startT ∧
      res.usedEff = s.used.take (makespanOf s data.durations.length) ∧
      res.capOut = s.cap := by
  unfold schedule_order at h
  cases hsl : sgsLoop data order F order.length order (initState data) with
  | error e =>
    rw [hsl] at h
    cases h
  | ok s =>
    rw [hsl] at h
    simp only [Except.ok.injEq] at h
    exact ⟨s, rfl, by rw [← h], by rw [← h], by rw [← h]⟩

/-- C1: precedence invariant of the returned schedule, for a topological
order over the full job set. -/
theorem C1_precedence (data : ProblemData) (order : List Nat) (F : Nat) (res : SGSResult)
    (hwf : WFData data) (hvalid : ValidPreds data) (htopo : IsTopoOrder order data)
    (hok : schedule_order order data F = .ok res) :
    ∀ v < data.durations.length, ∀ p ∈ data.predecessors.getD v [],
      res.starts.getD p (-1) + (data.durations.getD p 0 : Int) ≤ res.starts.getD v (-1) := by
  have hnd : order.Nodup := (htopo.1.nodup_iff).mpr (List.nodup_range _)
  have hord : ∀ i ∈ order, i < data.durations.length :=
    fun i hi => List.mem_range.mp (htopo.1.mem_iff.mp hi)
  have hmemord : ∀ i, i < data.durations.length → i ∈ order :=
    fun i hi => htopo.1.mem_iff.mpr (List.mem_range.mpr hi)
  obtain ⟨s, hsl, hstarts, -, -⟩ := schedule_order_ok_elim hok
  have hfin := sgsLoop_inv data order F hwf hord order.length order (initState data) s
    (LoopInv_init data order hwf hnd) hsl
  intro v hv p hp
  have hplt : p < data.durations.length := hvalid v hv p hp
  have hvsched : s.scheduled v = true :=
    hfin.presentSched v (hmemord v hv) (List.not_mem_nil v)
  obtain ⟨hpsched, hple⟩ := hfin.prec v hvsched p hp (hmemord p hplt)
  have hpfin := hfin.sched_finish p hpsched
  rw [hstarts, getD_map_range, getD_map_range, if_pos hv, if_pos hplt]
  rw [hpfin] at hple
  exact hple

/-- C1 witness over the two-job chain instance. -/
theorem C1_precedence_witness :
    WFData dataChain ∧ ValidPreds dataChain ∧ IsTopoOrder [0, 1] dataChain ∧
    schedule_order [0, 1] dataChain 10 = .ok resChain ∧
    resChain.starts.getD 0 (-1) + (dataChain.durations.getD 0 0 : Int) ≤
      resChain.starts.getD 1 (-1) := by
  have hwf : WFData dataChain := by
    refine ⟨by decide, by decide, by decide, by decide⟩
  have hvalid : ValidPreds dataChain := by
    unfold ValidPreds
    decide
  have htopo : IsTopoOrder [0, 1] dataChain := by
    constructor
    · decide
    · decide
  have hok : schedule_order [0, 1] dataChain 10 = .ok resChain := by rfl
  exact ⟨hwf, hvalid, htopo, hok,
    C1_precedence dataChain [0, 1] 10 resChain hwf hvalid htopo hok 1 (by decide) 0 (by decide)⟩

/-- C2: capacity invariant of the returned full schedule: cumulative
demand of the scheduled jobs never exceeds the (possibly extended)
capacity, in particular at every period inside an occupied window. -/
theorem C2_capacity (data : ProblemData) (order : List Nat) (F : Nat) (res : SGSResult)
    (hwf : WFData data) (hperm : order.Perm (List.range data.durations.length))
    (hok : schedule_order order data F = .ok res) :
    ∀ (tau r : Nat),
      (∃ jj < data.durations.length, 0 < data.durations.getD jj 0 ∧
        0 ≤ res.starts.getD jj (-1) ∧ res.starts.getD jj (-1) ≤ (tau : Int) ∧
        (tau : Int) < res.starts.getD jj (-1) + (data.durations.getD jj 0 : Int)) →
      cumUsage data (fun j => res.starts.getD j (-1)) tau r ≤
        (res.capOut.getD tau []).getD r 0 := by
  have hnd : order.Nodup := (hperm.nodup_iff).mpr (List.nodup_range _)
  have hord : ∀ i ∈ order, i < data.durations.length :=
    fun i hi => List.mem_range.mp (hperm.mem_iff.mp hi)
  obtain ⟨s, hsl, hstarts, -, hcap⟩ := schedule_order_ok_elim hok
  have hfin := sgsLoop_inv data order F hwf hord order.length order (initState data) s
    (LoopInv_init data order hwf hnd) hsl
  intro tau r _
  have hcong : cumUsage data (fun j => res.starts.getD j (-1)) tau r =
      cumUsage data s.startT tau r := by
    apply cumUsage_congr
    intro j hj
    rw [hstarts, getD_map_range, if_pos hj]
  rw [hcong, hcap]
  exact le_trans (hfin.sum_le tau r) (hfin.le_cap tau r)

/-- C2 witness over the two-job chain instance at the first period. -/
theorem C2_capacity_witness :
    WFData dataChain ∧ ([0, 1] : List Nat).Perm (List.range dataChain.durations.length) ∧
    schedule_order [0, 1] dataChain 10 = .ok resChain ∧
    (∃ jj < dataChain.durations.length, 0 < dataChain.durations.getD jj 0 ∧
      0 ≤ resChain.starts.getD jj (-1) ∧ resChain.starts.getD jj (-1) ≤ (0 : Int) ∧
      (0 : Int) < resChain.starts.getD jj (-1) + (dataChain.durations.getD jj 0 : Int)) ∧
    cumUsage dataChain (fun j => resChain.starts.getD j (-1)) 0 0 ≤
      (resChain.capOut.getD 0 []).getD 0 0 := by
  have hwf : WFData dataChain := ⟨by decide, by decide, by decide, by decide⟩
  have hperm : ([0, 1] : List Nat).Perm (List.range dataChain.durations.length) := by decide
  have hok : schedule_order [0, 1] dataChain 10 = .ok resChain := by rfl
  exact ⟨hwf, hperm, hok, ⟨0, by decide, by decide, by decide, by decide, by decide⟩,
    C2_capacity dataChain [0, 1] 10 resChain hwf hperm hok 0 0
      ⟨0, by decide, by decide, by decide, by decide, by decide⟩⟩

/-- Capacity-shape invariant alone, needing no wellformedness: the loop
only ever appends copies of the original last capacity row. -/
theorem sgsLoop_cap_only (data : ProblemData) (order : List Nat) (F : Nat) :
    ∀ fuel rem s s',
      sgsLoop data order F fuel rem s = .ok s' →
      (∃ m, s.cap = data.cap_tm ++ List.replicate m (data.cap_tm.getLastD [])) →
      ∃ m, s'.cap = data.cap_tm ++ List.replicate m (data.cap_tm.getLastD []) := by
  intro fuel
  induction fuel with
  | zero =>
    intro rem s s' hrun hext
    cases rem with
    | nil =>
      rw [sgsLoop.eq_1] at hrun
      obtain rfl : s = s' := by simpa using hrun
      exact hext
    | cons a as =>
      rw [sgsLoop.eq_2] at hrun
      cases hrun
  | succ fuel ih =>
    intro rem s s' hrun hext
    cases rem with
    | nil =>
      rw [sgsLoop.eq_1] at hrun
      obtain rfl : s = s' := by simpa using hrun
      exact hext
    | cons a as =>
      rw [sgsLoop.eq_3 data order F (a :: as) s fuel (by simp)] at hrun
      cases hfind : List.findIdx? (eligible data order s.scheduled) (a :: as) with
      | none =>
        rw [hfind] at hrun
        cases hrun
      | some idx =>
        rw [hfind] at hrun
        simp only [] at hrun
        by_cases hd : data.durations.getD ((a :: as).getD idx 0) 0 = 0
        · rw [if_pos hd] at hrun
          exact ih _ _ _ hrun hext
        · rw [if_neg hd] at hrun
          cases hfs : findStart (data.needs.getD ((a :: as).getD idx 0) [])
              (data.durations.getD ((a :: as).getD idx 0) 0) F
              ((((predsPresent data order ((a :: as).getD idx 0)).map
                s.finishT).foldl max 0).toNat) s.cap s.used with
          | none =>
            rw [hfs] at hrun
            cases hrun
          | some tcu =>
            obtain ⟨t, cap', used'⟩ := tcu
            rw [hfs] at hrun
            apply ih _ _ _ hrun
            obtain ⟨-, ⟨m2, hc2, -⟩, -, -⟩ :=
              findStart_spec _ _ _ _ _ _ _ _ _ hfs
            obtain ⟨m, hce⟩ := hext
            refine ⟨m + m2, ?_⟩
            show cap' = _
            rw [hc2, hce, getLastD_append_replicate, List.append_assoc, ← List.replicate_add]

/-- C10: the builder leaves every field of the problem data unchanged
except cap_tm, which only grows by appended copies of the original last
row; all pre-existing rows keep their value. -/
theorem C10_frame (data : ProblemData) (order : List Nat) (F : Nat) (res : SGSResult)
    (hok : schedule_order order data F = .ok res) :
    (dataAfter data res).durations = data.durations ∧
    (dataAfter data res).successors = data.successors ∧
    (dataAfter data res).predecessors = data.predecessors ∧
    (dataAfter data res).needs = data.needs ∧
    (dataAfter data res).resource_names = data.resource_names ∧
    (∃ k, res.capOut = data.cap_tm ++ List.replicate k (data.cap_tm.getLastD [])) ∧
    ∀ i < data.cap_tm.length, res.capOut.getD i [] = data.cap_tm.getD i [] := by
  obtain ⟨s, hsl, -, -, hcap⟩ := schedule_order_ok_elim hok
  have hext := sgsLoop_cap_only data order F order.length order (initState data) s hsl
    ⟨0, by simp [initState]⟩
  refine ⟨rfl, rfl, rfl, rfl, rfl, hcap ▸ hext, ?_⟩
  obtain ⟨k, hk⟩ := hext
  intro i hi
  rw [hcap, hk, getD_append_lt _ _ _ _ hi]

/-- C10 witness: the one-row horizon instance whose run appends one row. -/
theorem C10_frame_witness :
    schedule_order [0] dataExt 10 = .ok resExt ∧
    (dataAfter dataExt resExt).durations = dataExt.durations ∧
    resExt.capOut = dataExt.cap_tm ++ List.replicate 1 (dataExt.cap_tm.getLastD []) ∧
    resExt.capOut.getD 0 [] = dataExt.cap_tm.getD 0 [] := by
  have hok : schedule_order [0] dataExt 10 = .ok resExt := by rfl
  have h := C10_frame dataExt [0] 10 resExt hok
  exact ⟨hok, h.1, by decide, h.2.2.2.2.2.2 0 (by decide)⟩

theorem exists_min_rank (rank : Nat → Nat) :
    ∀ l : List Nat, l ≠ [] → ∃ j ∈ l, ∀ i ∈ l, rank j ≤ rank i := by
  intro l
  induction l with
  | nil => exact fun h => absurd rfl h
  | cons a as ih =>
    intro _
    by_cases has : as = []
    · subst has
      refine ⟨a, List.mem_cons_self a [], ?_⟩
      intro i hi
      rcases List.mem_cons.mp hi with rfl | h
      · exact le_refl _
      · cases h
    · obtain ⟨j, hj, hmin⟩ := ih has
      by_cases hle : rank a ≤ rank j
      · refine ⟨a, List.mem_cons_self a as, ?_⟩
        intro i hi
        rcases List.mem_cons.mp hi with rfl | h
        · exact le_refl _
        · exact le_trans hle (hmin i h)
      · refine ⟨j, List.mem_cons_of_mem a hj, ?_⟩
        intro i hi
        rcases List.mem_cons.mp hi with rfl | h
        · exact le_of_lt (not_le.mp hle)
        · exact hmin i h

theorem presentSched_step {order rem : List Nat} {sched : Nat → Bool} {idx : Nat}
    (hps : ∀ p, p ∈ order → p ∉ rem → sched p = true) :
    ∀ p, p ∈ order → p ∉ rem.eraseIdx idx →
      Function.update sched (rem.getD idx 0) true p = true := by
  intro p hpo hpne
  by_cases hpj : p = rem.getD idx 0
  · subst hpj
    exact Function.update_same _ _ _
  · rw [Function.update_noteq hpj]
    exact hps p hpo fun hpin => hpne (mem_eraseIdx_of_ne rem idx p hpin hpj)

/-- The eligibility scan cannot fail while the precedence graph admits a
rank function increasing along edges: the no-eligible-job error of the
builder is unreachable for acyclic data and valid orders. -/
theorem sgsLoop_no_noEligible (data : ProblemData) (order : List Nat) (F : Nat)
    (rank : Nat → Nat)
    (hrank : ∀ j < data.durations.length,
      ∀ p ∈ data.predecessors.getD j [], rank p < rank j)
    (hord : ∀ i ∈ order, i < data.durations.length) :
    ∀ fuel rem s,
      (∀ p ∈ rem, p ∈ order) →
      (∀ p, p ∈ order → p ∉ rem → s.scheduled p = true) →
      sgsLoop data order F fuel rem s ≠ .error .noEligible := by
  intro fuel
  induction fuel with
  | zero =>
    intro rem s _ _
    cases rem with
    | nil =>
      rw [sgsLoop.eq_1]
      simp
    | cons a as =>
      rw [sgsLoop.eq_2]
      simp
  | succ fuel ih =>
    intro rem s hsub hps
    cases rem with
    | nil =>
      rw [sgsLoop.eq_1]
      simp
    | cons a as =>
      rw [sgsLoop.eq_3 data order F (a :: as) s fuel (by simp)]
      have hne : List.findIdx? (eligible data order s.scheduled) (a :: as) ≠ none := by
        intro hnone
        rw [List.findIdx?_eq_none_iff] at hnone
        obtain ⟨jm, hjm, hmin⟩ := exists_min_rank rank (a :: as) (by simp)
        have helig : eligible data order s.scheduled jm = true := by
          unfold eligible
          rw [List.all_eq_true]
          intro p hpmem
          obtain ⟨hp, hpo⟩ := mem_predsPresent.mp hpmem
          have hjmlt : jm < data.durations.length := hord jm (hsub jm hjm)
          have hrlt : rank p < rank jm := hrank jm hjmlt p hp
          have hpnotrem : p ∉ (a :: as) := by
            intro hpin
            exact absurd (hmin p hpin) (by omega)
          exact hps p hpo hpnotrem
        have := hnone jm hjm
        rw [helig] at this
        cases this
      cases hfind : List.findIdx? (eligible data order s.scheduled) (a :: as) with
      | none => exact absurd hfind hne
      | some idx =>
        simp only []
        have hsub' : ∀ p ∈ (a :: as).eraseIdx idx, p ∈ order :=
          fun p hp => hsub p ((List.eraseIdx_sublist (a :: as) idx).subset hp)
        by_cases hd : data.durations.getD ((a :: as).getD idx 0) 0 = 0
        · rw [if_pos hd]
          exact ih _ _ hsub' (presentSched_step hps)
        · rw [if_neg hd]
          cases hfs : findStart (data.needs.getD ((a :: as).getD idx 0) [])
              (data.durations.getD ((a :: as).getD idx 0) 0) F
              ((((predsPresent data order ((a :: as).getD idx 0)).map
                s.finishT).foldl max 0).toNat) s.cap s.used with
          | none => simp
          | some tcu =>
            obtain ⟨t, cap', used'⟩ := tcu
            exact ih _ _ hsub' (presentSched_step hps)

/-- C6: for acyclic precedence data and a duplicate-free order of valid
job indices, the builder never reports the no-eligible-job error (the
RuntimeError branch of sgs.py line 48 is unreachable). -/
theorem C6_no_eligible_unreachable (data : ProblemData) (order : List Nat) (F : Nat)
    (hacyc : Acyclic data) (_hnd : order.Nodup)
    (hord : ∀ i ∈ order, i < data.durations.length) :
    schedule_order order data F ≠ .error .noEligible := by
  obtain ⟨rank, hrank⟩ := hacyc
  intro h
  unfold schedule_order at h
  cases hsl : sgsLoop data order F order.length order (initState data) with
  | error e =>
    rw [hsl] at h
    simp only [Except.error.injEq] at h
    subst h
    exact sgsLoop_no_noEligible data order F rank hrank hord order.length order
      (initState data) (fun p hp => hp) (fun p hpo hpno => absurd hpo hpno) hsl
  | ok s =>
    rw [hsl] at h
    cases h

/-- C6 witness at the two-job chain instance with the identity ranking. -/
theorem C6_no_eligible_unreachable_witness :
    Acyclic dataChain ∧ ([0, 1] : List Nat).Nodup ∧
    (∀ i ∈ ([0, 1] : List Nat), i < dataChain.durations.length) ∧
    schedule_order [0, 1] dataChain 5 ≠ .error .noEligible := by
  have hacyc : Acyclic dataChain := ⟨fun j => j, by decide⟩
  exact ⟨hacyc, by decide, by decide,
    C6_no_eligible_unreachable dataChain [0, 1] 5 hacyc (by decide) (by decide)⟩

/-! Parallel-run lemmas for the idempotence of repeated builder calls: a
run whose capacity/usage matrices extend those of another run by copies of
the last capacity row makes identical scheduling decisions. -/

theorem ensureLen_of_le {cap used : List (List Nat)} {needed : Nat}
    (h : needed ≤ cap.length) : ensureLen cap used needed = (cap, used) := by
  unfold ensureLen
  rw [if_pos h]

theorem ensureLen_of_gt {cap used : List (List Nat)} {needed : Nat}
    (h : ¬ needed ≤ cap.length) (hne : cap ≠ []) :
    ensureLen cap used needed =
      (cap ++ List.replicate (needed - cap.length) (cap.getLastD []),
       used ++ List.replicate (needed - cap.length)
         (List.replicate (cap.getLastD []).length 0)) := by
  unfold ensureLen
  rw [if_neg h]
  simp only [padRows_of_ne_nil hne, List.map_replicate]

theorem padRows_length_le (cap : List (List Nat)) (extra : Nat) :
    (padRows cap extra).length ≤ extra := by
  unfold padRows
  cases hc : cap.getLast? with
  | none => simp
  | some r => rw [List.length_replicate]

theorem ensureLen_len_le (cap used : List (List Nat)) (needed : Nat) :
    (ensureLen cap used needed).1.length ≤ max cap.length needed := by
  unfold ensureLen
  by_cases h : needed ≤ cap.length
  · rw [if_pos h]
    exact le_max_left _ _
  · rw [if_neg h]
    show (cap ++ padRows cap (needed - cap.length)).length ≤ _
    rw [List.length_append]
    have := padRows_length_le cap (needed - cap.length)
    omega

theorem windowFeasible_extends_eq {c1 u1 c2 u2 : List (List Nat)} {req : List Nat}
    {t d : Nat} (hext : Extends c1 u1 c2 u2) (hlen : u1.length = c1.length)
    (hle : t + d ≤ c1.length) :
    windowFeasible u2 c2 req t d = windowFeasible u1 c1 req t d := by
  obtain ⟨m, hc2, hu2⟩ := hext
  have hrow : ∀ k, k < d →
      u2.getD (t + k) [] = u1.getD (t + k) [] ∧
      c2.getD (t + k) [] = c1.getD (t + k) [] := by
    intro k hk
    constructor
    · rw [hu2, getD_append_lt _ _ _ _ (by omega)]
    · rw [hc2, getD_append_lt _ _ _ _ (by omega)]
  unfold windowFeasible
  rw [decide_eq_decide]
  constructor
  · intro h k hk
    rw [← (hrow k hk).1, ← (hrow k hk).2]
    exact h k hk
  · intro h k hk
    rw [(hrow k hk).1, (hrow k hk).2]
    exact h k hk

theorem ensureLen_parallel {c1 u1 c2 u2 : List (List Nat)} (needed : Nat)
    (hne : c1 ≠ []) (hext : Extends c1 u1 c2 u2)
    (hl1 : u1.length = c1.length) (hl2 : u2.length = c2.length) :
    Extends (ensureLen c1 u1 needed).1 (ensureLen c1 u1 needed).2
      (ensureLen c2 u2 needed).1 (ensureLen c2 u2 needed).2 ∧
    (ensureLen c1 u1 needed).2.length = (ensureLen c1 u1 needed).1.length ∧
    (ensureLen c2 u2 needed).2.length = (ensureLen c2 u2 needed).1.length := by
  obtain ⟨m, hc2, hu2⟩ := hext
  have hne2 : c2 ≠ [] := Extends_ne_nil ⟨m, hc2, hu2⟩ hne
  have hlen2 : c2.length = c1.length + m := by
    rw [hc2]
    simp
  have hlast2 : c2.getLastD [] = c1.getLastD [] := by
    rw [hc2]
    exact getLastD_append_replicate _ _
  by_cases h1 : needed ≤ c1.length
  · have h2 : needed ≤ c2.length := by omega
    rw [ensureLen_of_le h1, ensureLen_of_le h2]
    exact ⟨⟨m, hc2, hu2⟩, hl1, hl2⟩
  · rw [ensureLen_of_gt h1 hne]
    by_cases h2 : needed ≤ c2.length
    · rw [ensureLen_of_le h2]
      refine ⟨⟨m - (needed - c1.length), ?_, ?_⟩, ?_, hl2⟩
      · show c2 = (c1 ++ List.replicate (needed - c1.length) (c1.getLastD [])) ++
          List.replicate (m - (needed - c1.length))
            ((c1 ++ List.replicate (needed - c1.length) (c1.getLastD [])).getLastD [])
        rw [getLastD_append_replicate, hc2, List.append_assoc, ← List.replicate_add]
        congr 2
        omega
      · show u2 = (u1 ++ List.replicate (needed - c1.length)
            (List.replicate (c1.getLastD []).length 0)) ++
          List.replicate (m - (needed - c1.length))
            (List.replicate
              ((c1 ++ List.replicate (needed - c1.length) (c1.getLastD [])).getLastD []).length
              0)
        rw [getLastD_append_replicate, hu2, List.append_assoc, ← List.replicate_add]
        congr 3
        omega
      · show (u1 ++ _).length = (c1 ++ _).length
        simp only [List.length_append, List.length_replicate]
        omega
    · rw [ensureLen_of_gt h2 hne2, hlast2]
      have hkey : c2 ++ List.replicate (needed - c2.length) (c1.getLastD []) =
          c1 ++ List.replicate (needed - c1.length) (c1.getLastD []) := by
        rw [hc2, List.append_assoc, ← List.replicate_add]
        congr 2
        simp only [List.length_append, List.length_replicate]
        omega
      have hkeyu : u2 ++ List.replicate (needed - c2.length)
            (List.replicate (c1.getLastD []).length 0) =
          u1 ++ List.replicate (needed - c1.length)
            (List.replicate (c1.getLastD []).length 0) := by
        rw [hu2, List.append_assoc, ← List.replicate_add]
        congr 3
        omega
      refine ⟨?_, ?_, ?_⟩
      · show Extends (c1 ++ _) (u1 ++ _) (c2 ++ _) (u2 ++ _)
        rw [hkey, hkeyu]
        exact Extends_refl _ _
      · show (u1 ++ _).length = (c1 ++ _).length
        simp only [List.length_append, List.length_replicate]
        omega
      · show (u2 ++ _).length = (c2 ++ _).length
        simp only [List.length_append, List.length_replicate]
        omega

theorem findStart_parallel (req : List Nat) (d : Nat) :
    ∀ fuel t c1 u1 c2 u2 t2 c1' u1',
      c1 ≠ [] → Extends c1 u1 c2 u2 →
      u1.length = c1.length → u2.length = c2.length →
      findStart req d fuel t c1 u1 = some (t2, c1', u1') →
      ∃ c2' u2', findStart req d fuel t c2 u2 = some (t2, c2', u2') ∧
        Extends c1' u1' c2' u2' ∧ u1'.length = c1'.length ∧ u2'.length = c2'.length := by
  intro fuel
  induction fuel with
  | zero =>
    intro t c1 u1 c2 u2 t2 c1' u1' _ _ _ _ h
    cases h
  | succ fuel ih =>
    intro t c1 u1 c2 u2 t2 c1' u1' hne hext hl1 hl2 h
    obtain ⟨hext', hl1', hl2'⟩ := ensureLen_parallel (t + d) hne hext hl1 hl2
    have hne1 : (ensureLen c1 u1 (t + d)).1 ≠ [] :=
      Extends_ne_nil (ensureLen_extends c1 u1 (t + d)) hne
    have hge : t + d ≤ (ensureLen c1 u1 (t + d)).1.length := ensureLen_length (t + d) hne
    have hweq : windowFeasible (ensureLen c2 u2 (t + d)).2 (ensureLen c2 u2 (t + d)).1 req t d
        = windowFeasible (ensureLen c1 u1 (t + d)).2 (ensureLen c1 u1 (t + d)).1 req t d :=
      windowFeasible_extends_eq hext' hl1' hge
    rw [show findStart req d (fuel + 1) t c1 u1 =
        (if windowFeasible (ensureLen c1 u1 (t + d)).2 (ensureLen c1 u1 (t + d)).1 req t d then
          some (t, (ensureLen c1 u1 (t + d)).1, (ensureLen c1 u1 (t + d)).2)
        else findStart req d fuel (t + 1) (ensureLen c1 u1 (t + d)).1
          (ensureLen c1 u1 (t + d)).2) from rfl] at h
    rw [show findStart req d (fuel + 1) t c2 u2 =
        (if windowFeasible (ensureLen c2 u2 (t + d)).2 (ensureLen c2 u2 (t + d)).1 req t d then
          some (t, (ensureLen c2 u2 (t + d)).1, (ensureLen c2 u2 (t + d)).2)
        else findStart req d fuel (t + 1) (ensureLen c2 u2 (t + d)).1
          (ensureLen c2 u2 (t + d)).2) from rfl]
    by_cases hw : windowFeasible (ensureLen c1 u1 (t + d)).2 (ensureLen c1 u1 (t + d)).1
        req t d = true
    · rw [if_pos hw] at h
      simp only [Option.some.injEq, Prod.mk.injEq] at h
      obtain ⟨rfl, rfl, rfl⟩ := h
      rw [if_pos (hweq.trans hw)]
      exact ⟨_, _, rfl, hext', hl1', hl2'⟩
    · rw [if_neg hw] at h
      rw [if_neg (by rw [hweq]; exact hw)]
      exact ih (t + 1) _ _ _ _ t2 c1' u1' hne1 hext' hl1' hl2' h

theorem findStart_len_le (req : List Nat) (d : Nat) :
    ∀ fuel t c u t2 c' u',
      findStart req d fuel t c u = some (t2, c', u') →
      c'.length ≤ max c.length (t2 + d) := by
  intro fuel
  induction fuel with
  | zero =>
    intro t c u t2 c' u' h
    cases h
  | succ fuel ih =>
    intro t c u t2 c' u' h
    rw [show findStart req d (fuel + 1) t c u =
        (if windowFeasible (ensureLen c u (t + d)).2 (ensureLen c u (t + d)).1 req t d then
          some (t, (ensureLen c u (t + d)).1, (ensureLen c u (t + d)).2)
        else findStart req d fuel (t + 1) (ensureLen c u (t + d)).1
          (ensureLen c u (t + d)).2) from rfl] at h
    by_cases hw : windowFeasible (ensureLen c u (t + d)).2 (ensureLen c u (t + d)).1
        req t d = true
    · rw [if_pos hw] at h
      simp only [Option.some.injEq, Prod.mk.injEq] at h
      obtain ⟨rfl, rfl, rfl⟩ := h
      exact ensureLen_len_le c u (t + d)
    · rw [if_neg hw] at h
      have h1 := ih (t + 1) _ _ t2 c' u' h
      have h2 : t + 1 ≤ t2 := (findStart_spec req d fuel (t + 1) _ _ t2 c' u' h).1
      have h3 := ensureLen_len_le c u (t + d)
      omega

theorem addUsage_append_replicate (u1 : List (List Nat)) (k : Nat) (Z : List Nat)
    (t d : Nat) (req : List Nat) (h : t + d ≤ u1.length) :
    addUsage (u1 ++ List.replicate k Z) t d req =
      addUsage u1 t d req ++ List.replicate k Z := by
  apply List.ext_getElem
  · simp [addUsage_length]
  · intro i h1 h2
    have hlt : i < u1.length + k := by
      rw [addUsage_length, List.length_append, List.length_replicate] at h1
      exact h1
    rw [← List.getD_eq_getElem _ [] h1, ← List.getD_eq_getElem _ [] h2, addUsage_getD]
    by_cases hi : i < u1.length
    · rw [if_pos (by rw [List.length_append, List.length_replicate]; omega),
        getD_append_lt _ _ _ _ hi,
        getD_append_lt _ _ _ _ (by rw [addUsage_length]; exact hi),
        addUsage_getD, if_pos hi]
    · have hge : u1.length ≤ i := Nat.le_of_not_lt hi
      have hcond : ¬ (t ≤ i ∧ i < t + d) := by omega
      rw [if_pos (by rw [List.length_append, List.length_replicate]; omega), if_neg hcond,
        getD_append_ge _ _ _ _ hge,
        getD_append_ge _ _ _ _ (by rw [addUsage_length]; exact hge),
        addUsage_length]

theorem sgsLoop_congr_data (data data2 : ProblemData) (order : List Nat) (F : Nat)
    (hdur : data2.durations = data.durations)
    (hpred : data2.predecessors = data.predecessors)
    (hneeds : data2.needs = data.needs) :
    ∀ fuel rem s, sgsLoop data2 order F fuel rem s = sgsLoop data order F fuel rem s := by
  have hpp : ∀ j, predsPresent data2 order j = predsPresent data order j := by
    intro j
    unfold predsPresent
    rw [hpred]
  have hel : ∀ sched : Nat → Bool, eligible data2 order sched = eligible data order sched := by
    intro sched
    funext j
    unfold eligible
    rw [hpp]
  intro fuel
  induction fuel with
  | zero =>
    intro rem s
    cases rem with
    | nil => rw [sgsLoop.eq_1, sgsLoop.eq_1]
    | cons a as => rw [sgsLoop.eq_2, sgsLoop.eq_2]
  | succ fuel ih =>
    intro rem s
    cases rem with
    | nil => rw [sgsLoop.eq_1, sgsLoop.eq_1]
    | cons a as =>
      rw [sgsLoop.eq_3 data2 order F (a :: as) s fuel (by simp),
        sgsLoop.eq_3 data order F (a :: as) s fuel (by simp), hel]
      cases List.findIdx? (eligible data order s.scheduled) (a :: as) with
      | none => rfl
      | some idx =>
        simp only []
        rw [hpp, hdur, hneeds]
        by_cases hd : data.durations.getD ((a :: as).getD idx 0) 0 = 0
        · rw [if_pos hd, if_pos hd]
          exact ih _ _
        · rw [if_neg hd, if_neg hd]
          cases findStart (data.needs.getD ((a :: as).getD idx 0) [])
              (data.durations.getD ((a :: as).getD idx 0) 0) F
              ((((predsPresent data order ((a :: as).getD idx 0)).map
                s.finishT).foldl max 0).toNat) s.cap s.used with
          | none => rfl
          | some tcu =>
            obtain ⟨t, cap', used'⟩ := tcu
            simp only []
            exact ih _ _

theorem sgsLoop_parallel (data : ProblemData) (order : List Nat) (F : Nat) :
    ∀ fuel rem (s1 s2 s1' : BuildState),
      s2.startT = s1.startT → s2.finishT = s1.finishT → s2.scheduled = s1.scheduled →
      Extends s1.cap s1.used s2.cap s2.used →
      s1.cap ≠ [] → s1.used.length = s1.cap.length → s2.used.length = s2.cap.length →
      sgsLoop data order F fuel rem s1 = .ok s1' →
      ∃ s2', sgsLoop data order F fuel rem s2 = .ok s2' ∧
        s2'.startT = s1'.startT ∧ s2'.finishT = s1'.finishT ∧
        s2'.scheduled = s1'.scheduled ∧
        Extends s1'.cap s1'.used s2'.cap s2'.used ∧
        s1.cap.length ≤ s1'.cap.length ∧
        s2'.cap.length ≤ max s2.cap.length s1'.cap.length := by
  intro fuel
  induction fuel with
  | zero =>
    intro rem s1 s2 s1' hst hfin hsch hext hne hl1 hl2 hrun
    cases rem with
    | nil =>
      rw [sgsLoop.eq_1] at hrun
      obtain rfl : s1 = s1' := by simpa using hrun
      exact ⟨s2, by rw [sgsLoop.eq_1], hst, hfin, hsch, hext, le_refl _, le_max_left _ _⟩
    | cons a as =>
      rw [sgsLoop.eq_2] at hrun
      cases hrun
  | succ fuel ih =>
    intro rem s1 s2 s1' hst hfin hsch hext hne hl1 hl2 hrun
    cases rem with
    | nil =>
      rw [sgsLoop.eq_1] at hrun
      obtain rfl : s1 = s1' := by simpa using hrun
      exact ⟨s2, by rw [sgsLoop.eq_1], hst, hfin, hsch, hext, le_refl _, le_max_left _ _⟩
    | cons a as =>
      rw [sgsLoop.eq_3 data order F (a :: as) s1 fuel (by simp)] at hrun
      rw [sgsLoop.eq_3 data order F (a :: as) s2 fuel (by simp), hsch, hfin, hst]
      cases hfind : List.findIdx? (eligible data order s1.scheduled) (a :: as) with
      | none =>
        rw [hfind] at hrun
        cases hrun
      | some idx =>
        rw [hfind] at hrun
        simp only [] at hrun ⊢
        by_cases hd : data.durations.getD ((a :: as).getD idx 0) 0 = 0
        · rw [if_pos hd] at hrun ⊢
          exact ih ((a :: as).eraseIdx idx)
            { s1 with
              startT := Function.update s1.startT ((a :: as).getD idx 0)
                (((predsPresent data order ((a :: as).getD idx 0)).map s1.finishT).foldl max 0)
              finishT := Function.update s1.finishT ((a :: as).getD idx 0)
                (((predsPresent data order ((a :: as).getD idx 0)).map s1.finishT).foldl max 0)
              scheduled := Function.update s1.scheduled ((a :: as).getD idx 0) true }
            { startT := Function.update s1.startT ((a :: as).getD idx 0)
                (((predsPresent data order ((a :: as).getD idx 0)).map s1.finishT).foldl max 0)
              finishT := Function.update s1.finishT ((a :: as).getD idx 0)
                (((predsPresent data order ((a :: as).getD idx 0)).map s1.finishT).foldl max 0)
              scheduled := Function.update s1.scheduled ((a :: as).getD idx 0) true
              used := s2.used
              cap := s2.cap }
            s1' rfl rfl rfl hext hne hl1 hl2 hrun
        · rw [if_neg hd] at hrun ⊢
          cases hfs : findStart (data.needs.getD ((a :: as).getD idx 0) [])
              (data.durations.getD ((a :: as).getD idx 0) 0) F
              ((((predsPresent data order ((a :: as).getD idx 0)).map
                s1.finishT).foldl max 0).toNat) s1.cap s1.used with
          | none =>
            rw [hfs] at hrun
            cases hrun
          | some tcu =>
            obtain ⟨t, c1', u1'⟩ := tcu
            rw [hfs] at hrun
            obtain ⟨c2', u2', hfs2, hext', hl1', hl2'⟩ :=
              findStart_parallel _ _ F _ _ _ s2.cap s2.used _ _ _ hne hext hl1 hl2 hfs
            rw [hfs2]
            have hspec := findStart_spec _ _ F _ _ _ _ _ _ hfs
            have htd : t + (data.durations.getD ((a :: as).getD idx 0) 0) ≤ u1'.length := by
              rw [hl1']
              exact hspec.2.2.1 hne
            obtain ⟨mm, hcc, huu⟩ := hext'
            have hextU : Extends c1'
                (addUsage u1' t (data.durations.getD ((a :: as).getD idx 0) 0)
                  (data.needs.getD ((a :: as).getD idx 0) []))
                c2'
                (addUsage u2' t (data.durations.getD ((a :: as).getD idx 0) 0)
                  (data.needs.getD ((a :: as).getD idx 0) [])) := by
              refine ⟨mm, hcc, ?_⟩
              rw [huu, addUsage_append_replicate _ _ _ _ _ _ htd]
            have hne' : c1' ≠ [] := Extends_ne_nil hspec.2.1 hne
            have hlA : (addUsage u1' t (data.durations.getD ((a :: as).getD idx 0) 0)
                (data.needs.getD ((a :: as).getD idx 0) [])).length = c1'.length := by
              rw [addUsage_length, hl1']
            have hlB : (addUsage u2' t (data.durations.getD ((a :: as).getD idx 0) 0)
                (data.needs.getD ((a :: as).getD idx 0) [])).length = c2'.length := by
              rw [addUsage_length, hl2']
            obtain ⟨s2', hrun2, hstF, hfinF, hschF, hextF, hlen1F, hlen2F⟩ :=
              ih ((a :: as).eraseIdx idx)
                { startT := Function.update s1.startT ((a :: as).getD idx 0) (t : Int)
                  finishT := Function.update s1.finishT ((a :: as).getD idx 0)
                    ((t : Int) + (data.durations.getD ((a :: as).getD idx 0) 0 : Int))
                  scheduled := Function.update s1.scheduled ((a :: as).getD idx 0) true
                  used := addUsage u1' t (data.durations.getD ((a :: as).getD idx 0) 0)
                    (data.needs.getD ((a :: as).getD idx 0) [])
                  cap := c1' }
                { startT := Function.update s1.startT ((a :: as).getD idx 0) (t : Int)
                  finishT := Function.update s1.finishT ((a :: as).getD idx 0)
                    ((t : Int) + (data.durations.getD ((a :: as).getD idx 0) 0 : Int))
                  scheduled := Function.update s1.scheduled ((a :: as).getD idx 0) true
                  used := addUsage u2' t (data.durations.getD ((a :: as).getD idx 0) 0)
                    (data.needs.getD ((a :: as).getD idx 0) [])
                  cap := c2' }
                s1' rfl rfl rfl hextU hne' hlA hlB hrun
            refine ⟨s2', hrun2, hstF, hfinF, hschF, hextF, ?_, ?_⟩
            · have h6 : c1'.length ≤ s1'.cap.length := hlen1F
              obtain ⟨hlc, -⟩ := Extends_lengths hspec.2.1
              omega
            · have h7 : s2'.cap.length ≤ max c2'.length s1'.cap.length := hlen2F
              have h6 : c1'.length ≤ s1'.cap.length := hlen1F
              have hfl := findStart_len_le _ _ F _ _ _ _ _ _ hfs2
              have htd2 : t + (data.durations.getD ((a :: as).getD idx 0) 0) ≤ c1'.length :=
                hspec.2.2.1 hne
              omega

/-- C5: determinism / idempotence of the builder across its visible side
effect.  Invoking schedule_order a second time with the same order on the
problem data left behind by the first call (whose cap_tm carries the
in-place horizon extension) returns the identical result: the same start
times, the same cropped usage matrix, and the capacity matrix unchanged —
the extension repeats the last capacity row and is idempotent. -/
theorem C5_second_run_identical (data : ProblemData) (order : List Nat) (F : Nat)
    (res1 : SGSResult) (hne : data.cap_tm ≠ [])
    (h1 : schedule_order order data F = .ok res1) :
    schedule_order order (dataAfter data res1) F = .ok res1 := by
  obtain ⟨s1, hsl1, hstarts, hused, hcap⟩ := schedule_order_ok_elim h1
  obtain ⟨m, hm⟩ := sgsLoop_cap_only data order F order.length order (initState data) s1 hsl1
    ⟨0, by simp [initState]⟩
  have hinit_ext : Extends (initState data).cap (initState data).used
      (initState (dataAfter data res1)).cap (initState (dataAfter data res1)).used := by
    refine ⟨m, ?_, ?_⟩
    · show res1.capOut = data.cap_tm ++ List.replicate m (data.cap_tm.getLastD [])
      rw [hcap, hm]
    · show res1.capOut.map (fun r => List.replicate r.length 0) =
        data.cap_tm.map (fun r => List.replicate r.length 0) ++
          List.replicate m (List.replicate (data.cap_tm.getLastD []).length 0)
      rw [hcap, hm]
      simp only [List.map_append, List.map_replicate]
  obtain ⟨s2, hsl2, hst, hfin, -, hextF, -, hlen2⟩ :=
    sgsLoop_parallel data order F order.length order (initState data)
      (initState (dataAfter data res1)) s1 rfl rfl rfl hinit_ext hne
      (by simp [initState]) (by simp [initState]) hsl1
  obtain ⟨k, hck, huk⟩ := hextF
  have hk0 : k = 0 := by
    have h1l : s2.cap.length = s1.cap.length + k := by
      rw [hck]
      simp
    have h2l : (initState (dataAfter data res1)).cap.length = s1.cap.length := by
      show res1.capOut.length = s1.cap.length
      rw [hcap]
    rw [h2l, max_self] at hlen2
    omega
  subst hk0
  have hcapeq : s2.cap = s1.cap := by
    rw [hck]
    simp
  have husedeq : s2.used = s1.used := by
    rw [huk]
    simp
  have hsl2' : sgsLoop (dataAfter data res1) order F order.length order
      (initState (dataAfter data res1)) = .ok s2 := by
    rw [sgsLoop_congr_data data (dataAfter data res1) order F rfl rfl rfl]
    exact hsl2
  have hms : makespanOf s2 data.durations.length = makespanOf s1 data.durations.length := by
    unfold makespanOf
    rw [hfin]
  rw [schedule_order_eq_of_sgsLoop hsl2']
  rw [show (dataAfter data res1).durations = data.durations from rfl,
    hst, hms, husedeq, hcapeq, ← hstarts, ← hused, ← hcap]

/-- C5 witness: the one-job instance whose first call extends the
one-period horizon to two rows; the second call on the extended data
returns the identical result. -/
theorem C5_second_run_identical_witness :
    dataExt.cap_tm ≠ [] ∧ schedule_order [0] dataExt 10 = .ok resExt ∧
    schedule_order [0] (dataAfter dataExt resExt) 10 = .ok resExt :=
  ⟨by decide, by rfl, C5_second_run_identical dataExt [0] 10 resExt (by decide) (by rfl)⟩
